import Mathlib

/-!
Shallow embedding of the multi-module compilation pipeline driver found in
`src/project.rs` (the `compile` function together with its data types), and
of the external collaborators it composes.  Collaborators that are not part
of the repository sources (the parser facade, the type checker, the code
generator) are kept abstract as function parameters; the topological sort of
the `petgraph` crate is modelled from the spec.  Rust `HashMap` iteration
order, which is unspecified and randomised per process, is made explicit as
a permutation parameter so that order-dependence is visible.
-/

namespace GleamProj

/-- Splitting of a character list at every occurrence of a separator,
keeping empty segments, exactly as Rust's `str::split` does (used for
`name.split("/")` in `compile`). -/
def splitChars (sep : Char) : List Char → List (List Char)
  | [] => [[]]
  | c :: cs =>
    match splitChars sep cs with
    | [] => [[]]
    | s :: ss => if c = sep then [] :: s :: ss else (c :: s) :: ss

/-- Joining of character-list segments with a separator character, as in
Rust's `[String]::join` and the `/`-joined `to_str` view of relative paths. -/
def joinChars (sep : Char) : List (List Char) → List Char
  | [] => []
  | [s] => s
  | s :: ss => s ++ sep :: joinChars sep ss

/-- String-level view of `splitChars`. -/
def splitOnChar (sep : Char) (s : String) : List String :=
  (splitChars sep s.data).map (fun l => ⟨l⟩)

/-- String-level view of `joinChars`. -/
def joinWith (sep : Char) (segs : List String) : String :=
  ⟨joinChars sep (segs.map String.data)⟩

/-- Model of Rust `PathBuf`: an absolute-or-relative flag plus the list of
path components.  Normalisation of `.` and `..` components is not modelled;
the driver never relies on it (inputs from `collect_source` are
canonicalised). -/
structure Path where
  abs : Bool
  comps : List String
deriving DecidableEq, Repr

/-- Model of `Path::strip_prefix`: removes the base's components, yielding a
relative remainder, or fails when the base is not a component prefix. -/
def Path.stripPref (p base : Path) : Option Path :=
  if p.abs = base.abs ∧ base.comps.isPrefixOf p.comps then
    some ⟨false, p.comps.drop base.comps.length⟩
  else none

/-- Model of `Path::parent`: drops the last component; `None` on an empty
path (the root `/` or the empty relative path). -/
def Path.parent : Path → Option Path
  | ⟨_, []⟩ => none
  | ⟨a, cs⟩ => some ⟨a, cs.dropLast⟩

/-- Model of `Path::join` with a single separator-free component. -/
def Path.join (p : Path) (s : String) : Path :=
  ⟨p.abs, p.comps ++ [s]⟩

/-- Character-level part of Rust `Path::file_stem`/`set_extension`: the
portion of a file name before its final `.`, the whole name when it has no
`.` or only a leading one. -/
def dropExtChars (n : List Char) : List Char :=
  match n.reverse.dropWhile (fun c => c != '.') with
  | [] => n
  | [_] => n
  | _ :: rest => rest.reverse

/-- Model of `Path::file_stem`: stem of the last component. -/
def Path.fileStem (p : Path) : Option String :=
  p.comps.getLast?.map (fun n => ⟨dropExtChars n.data⟩)

/-- Model of `Path::set_extension`: replaces the extension of the last
component (a no-op on an empty path, as in Rust where it returns `false`). -/
def Path.setExt (p : Path) (e : String) : Path :=
  match p.comps.getLast? with
  | none => p
  | some n => ⟨p.abs, p.comps.dropLast ++ [(⟨dropExtChars n.data⟩ : String) ++ "." ++ e]⟩

/-- Model of `Path::to_str` (always succeeds: components are valid UTF-8). -/
def Path.toStr (p : Path) : String :=
  if p.abs then "/" ++ joinWith '/' p.comps else joinWith '/' p.comps

/-- Source location attached to a declared dependency, `crate::ast::Meta`.
Modelled from the spec and the test cases in `project.rs` (`Meta { start: 7,
end: 10 }`): a start and an end offset.  The `end` field is called `stop`
here because `end` is a Lean keyword. -/
structure Meta where
  start : Nat
  stop : Nat
deriving DecidableEq, Repr

/-- The `ModuleOrigin` enumeration of `project.rs`. -/
inductive ModuleOrigin where
  | Src
  | Test
  | Dependency
deriving DecidableEq, Repr

/-- `ModuleOrigin::dir_name` of `project.rs`. -/
def ModuleOrigin.dirName : ModuleOrigin → String
  | .Src | .Dependency => "src"
  | .Test => "test"

/-- The `RenderDocs` two-valued enumeration of `project.rs`. -/
inductive RenderDocs where
  | True
  | False
deriving DecidableEq, Repr

/-- Modelled from the spec: an untyped AST exposes an assignable `name`
(sequence of string segments, set by the driver after parsing) and a
`dependencies()` query returning `(imported_module_name, location)` pairs.
Everything else about the AST is irrelevant to the driver. -/
structure UntypedModule where
  name : List String
  deps : List (String × Meta)
deriving DecidableEq, Repr

/-- Modelled from the spec: a typed module carries a name and its
`type_info` signature (of abstract type `τ`). -/
structure TypedModule (τ : Type) where
  name : List String
  type_info : τ
deriving DecidableEq, Repr

/-- Modelled from the spec: `name_string()` is the view of the name with
segments joined by `/`. -/
def UntypedModule.nameString (m : UntypedModule) : String :=
  joinWith '/' m.name

/-- The `Input` record of `project.rs`. -/
structure Input where
  source_base_path : Path
  path : Path
  src : String
  origin : ModuleOrigin
deriving DecidableEq, Repr

/-- The `OutputFile` record of `project.rs`. -/
structure OutputFile where
  contents : String
  path : Path
deriving DecidableEq, Repr

/-- The `Compiled` record of `project.rs`, with abstract `type_info`. -/
structure Compiled (τ : Type) where
  name : List String
  origin : ModuleOrigin
  files : List OutputFile
  type_info : τ
deriving DecidableEq, Repr

/-- The error sum type, modelled from its construction sites in
`project.rs` and the error table of the spec.  `π` is the abstract parse
error payload, `ε` the abstract type error payload. -/
inductive Error (π ε : Type) where
  | parse (path : Path) (src : String) (error : π)
  | duplicateModule (module : String) (first second : Path)
  | unknownImport (module imported : String) (src : String) (path : Path)
      (modules : List String) (meta : Meta)
  | srcImportingTest (path : Path) (src : String) (meta : Meta)
      (src_module test_module : String)
  | dependencyCycle
  | typeError (path : Path) (src : String) (error : ε)
deriving DecidableEq, Repr

/-- The per-input `Module` record that `compile` keeps in its `modules`
table. -/
structure PModule where
  src : String
  path : Path
  source_base_path : Path
  origin : ModuleOrigin
  module : UntypedModule
deriving DecidableEq, Repr

/-- The `Out` accumulator record of the compile loop in `project.rs`. -/
structure Out where
  name_string : String
  name : List String
  origin : ModuleOrigin
  files : List OutputFile
deriving DecidableEq, Repr

/-- State threaded through the compile loop: the accumulated
`modules_type_infos` signature map (newest entry first; looked up by first
match, which coincides with `HashMap` insert/get because keys are unique)
and the accumulated `compiled_modules` outputs. -/
structure PassState (τ : Type) where
  sigs : List (String × τ)
  outs : List Out

/-- Except-valued `mapM` written by explicit recursion. -/
def mapME {E α β : Type} (f : α → Except E β) : List α → Except E (List β)
  | [] => .ok []
  | a :: as =>
    match f a with
    | .error e => .error e
    | .ok b =>
      match mapME f as with
      | .error e => .error e
      | .ok bs => .ok (b :: bs)

/-- Except-valued left fold written by explicit recursion. -/
def foldME {E σ α : Type} (f : σ → α → Except E σ) : σ → List α → Except E σ
  | s, [] => .ok s
  | s, a :: as =>
    match f s a with
    | .error e => .error e
    | .ok s' => foldME f s' as

/-- Lookup in the `indexes`/`modules` pair of hash maps: the registered
modules are kept as a list whose position is the graph node index, so
looking a name up yields its node index and its module record. -/
def lookupIdxGo (nm : String) : Nat → List (String × PModule) → Option (Nat × PModule)
  | _, [] => none
  | k, (n, m) :: rest => if n == nm then some (k, m) else lookupIdxGo nm (k + 1) rest

/-- Lookup a module name in the registration table. -/
def lookupIdx (st : List (String × PModule)) (nm : String) : Option (Nat × PModule) :=
  lookupIdxGo nm 0 st

/-- The module-name derivation of `compile` (lines 74-82 of `project.rs`):
strip the base path, take the directory portion, append the file stem,
render with `/` separators.  The `unwrap`s of the source are modelled as
`Option`. -/
def moduleName (i : Input) : Option String := do
  let rel ← Path.stripPref i.path i.source_base_path
  let dir ← rel.parent
  let stem ← i.path.fileStem
  pure (dir.join stem).toStr

variable {π ε τ : Type}

/-- Pass 1 of `compile` (registration, lines 67-116): derive each name,
parse each source, fail on a duplicate name, and append the module to the
registration table (position = graph node index).  A `.error none` models a
Rust panic (an `unwrap` failing). -/
def pass1 (parse : String → Except π UntypedModule) (se : String → String) :
    List (String × PModule) → List Input →
      Except (Option (Error π ε)) (List (String × PModule))
  | st, [] => .ok st
  | st, i :: rest =>
    match moduleName i with
    | none => .error none
    | some name =>
      match parse (se i.src) with
      | .error e => .error (some (.parse i.path i.src e))
      | .ok m =>
        match lookupIdx st name with
        | some (_, pm) => .error (some (.duplicateModule name pm.path i.path))
        | none =>
          pass1 parse se
            (st ++ [(name, ⟨i.src, i.path, i.source_base_path, i.origin,
              { m with name := splitOnChar '/' name }⟩)]) rest

/-- The `modules.values().map(|m| m.module.name_string()).collect()` list
stored in an `UnknownImport` error, in `HashMap` iteration order `σ`. -/
def valuesNames (st : List (String × PModule)) (σ : List Nat) : List String :=
  σ.filterMap (fun i => st[i]?.map (fun e => e.2.module.nameString))

/-- Processing of one declared dependency in pass 2 (lines 131-157):
unknown imports and `Src`-importing-`Test` are errors, otherwise an edge
`dependency → dependent` is recorded. -/
def pass2Dep (st : List (String × PModule)) (σ : List Nat) (module_name : String)
    (m : PModule) (mi : Nat) : String × Meta → Except (Option (Error π ε)) (Nat × Nat)
  | (dep, meta) =>
    match lookupIdx st dep with
    | none =>
      .error (some (.unknownImport module_name dep m.src m.path (valuesNames st σ) meta))
    | some (di, dm) =>
      if m.origin = ModuleOrigin.Src ∧ dm.origin = ModuleOrigin.Test then
        .error (some (.srcImportingTest m.path m.src meta module_name dep))
      else .ok (di, mi)

/-- Processing of one module of the `modules.values()` loop in pass 2
(lines 119-159): re-derive its index from its name string and process its
declared dependencies in order. -/
def pass2Mod (st : List (String × PModule)) (σ : List Nat) (i : Nat) :
    Except (Option (Error π ε)) (List (Nat × Nat)) :=
  match st[i]? with
  | none => .error none
  | some (_, m) =>
    let module_name := m.module.nameString
    match lookupIdx st module_name with
    | none => .error none
    | some (mi, _) => mapME (pass2Dep st σ module_name m mi) m.module.deps

/-- Pass 2 of `compile`: the dependency-registration loop over
`modules.values()`, whose iteration order is the explicit parameter `σ`. -/
def pass2 (st : List (String × PModule)) (σ : List Nat) :
    Except (Option (Error π ε)) (List (Nat × Nat)) :=
  match mapME (pass2Mod st σ) σ with
  | .error e => .error e
  | .ok ess => .ok ess.flatten

/-- Check used by the scheduler: node `v` has no incoming edge from any
still-unscheduled node. -/
def noIncoming (edges : List (Nat × Nat)) (remaining : List Nat) (v : Nat) : Bool :=
  remaining.all (fun u => !(decide ((u, v) ∈ edges)))

/-- First schedulable node among the remaining ones. -/
def pickNode (edges : List (Nat × Nat)) (remaining : List Nat) : Option Nat :=
  remaining.find? (noIncoming edges remaining)

/-- Modelled from the spec: the topological scheduler produces a linear
sequence of node indices honouring all edges or fails on a cycle; the order
among independent modules is an implementation choice (here: first
schedulable node in node-index order).  Fuel keeps the recursion
structural; `topoSort` supplies fuel equal to the node count, which always
suffices. -/
def topoLoop (edges : List (Nat × Nat)) : Nat → List Nat → Option (List Nat)
  | _, [] => some []
  | 0, _ :: _ => none
  | fuel + 1, x :: xs =>
    match pickNode edges (x :: xs) with
    | none => none
    | some v => (topoLoop edges fuel ((x :: xs).erase v)).map (fun l => v :: l)

/-- Modelled from the spec: topological sort of the graph with nodes
`0, …, n-1` and the given `dependency → dependent` edges. -/
def topoSort (n : Nat) (edges : List (Nat × Nat)) : Option (List Nat) :=
  topoLoop edges n (List.range n)

/-- Lookup in the accumulated signature map (first match; keys are
unique). -/
def sigLookup (sigs : List (String × τ)) (k : String) : Option τ :=
  (sigs.find? (fun p => p.1 == k)).map (fun p => p.2)

/-- One iteration of the compile loop of `project.rs` (lines 171-221) for
node index `i`: fetch the module, type check it against the accumulated
signature map, derive the generated-source path, record the signature, emit
the target source and optionally the docs file, and accumulate the output
record. -/
def step (infer : UntypedModule → (String → Option τ) → Except ε (TypedModule τ))
    (emit : TypedModule τ → String) (st : List (String × PModule)) (rd : RenderDocs)
    (s : PassState τ) (i : Nat) : Except (Option (Error π ε)) (PassState τ) :=
  match st[i]? with
  | none => .error none
  | some (_, m) =>
    let name := m.module.name
    let name_string := m.module.nameString
    match infer m.module (sigLookup s.sigs) with
    | .error e => .error (some (.typeError m.path m.src e))
    | .ok t =>
      match m.source_base_path.parent with
      | none => .error none
      | some pp =>
        let gen_dir := pp.join "gen"
        let path := (gen_dir.join m.origin.dirName).join (joinWith '@' t.name ++ ".erl")
        let files := [OutputFile.mk (emit t) path] ++
          (if m.origin = ModuleOrigin.Src ∧ rd = RenderDocs.True then
            [OutputFile.mk "hey look some docs"
              ((name.foldl Path.join (gen_dir.join "docs")).setExt "md")]
          else [])
        .ok ⟨(name_string, t.type_info) :: s.sigs, s.outs ++ [⟨name_string, name, m.origin, files⟩]⟩

/-- The output assembler (lines 223-233): move each module's type info out
of the signature map into its `Compiled` record. -/
def assemble (sigs : List (String × τ)) (outs : List Out) :
    Except (Option (Error π ε)) (List (Compiled τ)) :=
  mapME (fun o =>
    match sigLookup sigs o.name_string with
    | none => .error none
    | some ti => .ok ⟨o.name, o.origin, o.files, ti⟩) outs

/-- Pass 3 of `compile`: fold the compile loop over the topological order,
then assemble the outputs. -/
def pass3 (infer : UntypedModule → (String → Option τ) → Except ε (TypedModule τ))
    (emit : TypedModule τ → String) (st : List (String × PModule)) (rd : RenderDocs)
    (order : List Nat) : Except (Option (Error π ε)) (List (Compiled τ)) :=
  match foldME (step infer emit st rd) ⟨[], []⟩ order with
  | .error e => .error e
  | .ok s => assemble s.sigs s.outs

/-- The driver entry point `compile` of `project.rs`, parameterised by the
external collaborators (`parse`, the `strip_extra` preprocessor `se`,
`infer`, `emit`) and by the `HashMap` iteration order `σ` of pass 2.
`.error none` models a panic, `.error (some e)` a returned error. -/
def compile (parse : String → Except π UntypedModule) (se : String → String)
    (infer : UntypedModule → (String → Option τ) → Except ε (TypedModule τ))
    (emit : TypedModule τ → String) (σ : List Nat) (srcs : List Input)
    (rd : RenderDocs) : Except (Option (Error π ε)) (List (Compiled τ)) :=
  match pass1 parse se [] srcs with
  | .error e => .error e
  | .ok st =>
    match pass2 st σ with
    | .error e => .error e
    | .ok edges =>
      match topoSort st.length edges with
      | none => .error (some .dependencyCycle)
      | some order => pass3 infer emit st rd order

/-- The dependencies a batch declares for the module named `nm`: the parsed
dependency names of the first input whose derived canonical name is `nm`.
This is the observable dependency relation of a batch, used to state the
ordering claims. -/
def declDeps (parse : String → Except π UntypedModule) (se : String → String)
    (srcs : List Input) (nm : String) : List String :=
  match srcs.find? (fun i => moduleName i == some nm) with
  | none => []
  | some i =>
    match parse (se i.src) with
    | .ok m => m.deps.map Prod.fst
    | .error _ => []

/-- One step of the dependency relation of a batch: `b` is declared as a
dependency by the module named `a`. -/
def DepStep (parse : String → Except π UntypedModule) (se : String → String)
    (srcs : List Input) (a b : String) : Prop :=
  b ∈ declDeps parse se srcs a

/-- Reachability via the dependency relation (one or more steps). -/
def ReachableFrom (parse : String → Except π UntypedModule) (se : String → String)
    (srcs : List Input) (a b : String) : Prop :=
  Relation.TransGen (DepStep parse se srcs) a b

/-- Name of the node with index `i` of the registration table. -/
def nodeName (st : List (String × PModule)) (i : Nat) : String :=
  (st[i]?.map (fun e => e.1)).getD ""

/-- The entry pass 1 appends for one input, when its name derivation and its
parse succeed (specification of one registration step, used to characterise
`pass1`). -/
def p1ent (parse : String → Except π UntypedModule) (se : String → String) (i : Input) :
    Option (String × PModule) :=
  match moduleName i, parse (se i.src) with
  | some nm, .ok m0 =>
    some (nm, ⟨i.src, i.path, i.source_base_path, i.origin,
      { m0 with name := splitOnChar '/' nm }⟩)
  | _, _ => none

/-- The file list one iteration of the compile loop produces (specification
of the file part of `step`). -/
def stepFiles (emit : TypedModule τ → String) (m : PModule) (t : TypedModule τ)
    (pp : Path) (rd : RenderDocs) : List OutputFile :=
  [OutputFile.mk (emit t)
    (((pp.join "gen").join m.origin.dirName).join (joinWith '@' t.name ++ ".erl"))] ++
  (if m.origin = ModuleOrigin.Src ∧ rd = RenderDocs.True then
    [OutputFile.mk "hey look some docs"
      ((m.module.name.foldl Path.join ((pp.join "gen").join "docs")).setExt "md")]
  else [])

/-- Shape observer: the `(module, import)` pair of an `UnknownImport`
result, if the result is one. -/
def unknownShape : Except (Option (Error π ε)) (List (Compiled τ)) → Option (String × String)
  | .error (some (.unknownImport m d _ _ _ _)) => some (m, d)
  | _ => none

/-- Table-driven concrete parser used by the concrete batches below: returns
the dependency list registered for the given source text (and no deps for
unknown text), never failing. -/
def tParse (tbl : List (String × List (String × Meta))) : String → Except Unit UntypedModule :=
  fun s => .ok ⟨[], ((tbl.find? (fun p => p.1 == s)).map (fun p => p.2)).getD []⟩

/-- Concrete type checker for the concrete batches: always succeeds,
preserving the module name. -/
def tInfer : UntypedModule → (String → Option Unit) → Except Unit (TypedModule Unit) :=
  fun m _ => .ok ⟨m.name, ()⟩

/-- Concrete code generator for the concrete batches. -/
def tEmit : TypedModule Unit → String := fun _ => ""

/-- Identity `strip_extra` preprocessor for the concrete batches. -/
def idSE : String → String := fun s => s

/-- Helper to build an absolute-path input. -/
def mkInput (base p : List String) (src : String) (o : ModuleOrigin) : Input :=
  ⟨⟨true, base⟩, ⟨true, p⟩, src, o⟩

/-- Batch of two independent source modules. -/
def c1In : List Input :=
  [mkInput ["src"] ["src", "one.gleam"] "" .Src,
   mkInput ["src"] ["src", "two.gleam"] "" .Src]

/-- Parser for batches without imports. -/
def noDepsParse : String → Except Unit UntypedModule := tParse []

/-- Parser for the cycle-plus-unknown-import batch. -/
def c3parse : String → Except Unit UntypedModule :=
  tParse [("import missing", [("missing", ⟨7, 14⟩)]),
          ("import c", [("c", ⟨7, 8⟩)]),
          ("import b", [("b", ⟨7, 8⟩)])]

/-- Batch containing both a dependency cycle (`b ↔ c`) and an
unknown import (`a` imports `missing`). -/
def c3In : List Input :=
  [mkInput ["src"] ["src", "a.gleam"] "import missing" .Src,
   mkInput ["src"] ["src", "b.gleam"] "import c" .Src,
   mkInput ["src"] ["src", "c.gleam"] "import b" .Src]

/-- Parser mapping `import one` to a dependency on `one`. -/
def impOneParse : String → Except Unit UntypedModule :=
  tParse [("import one", [("one", ⟨7, 10⟩)])]

/-- Batch with a single self-importing module. -/
def c9In : List Input := [mkInput ["src"] ["src", "one.gleam"] "import one" .Src]

/-- Parser mapping `import two` to a dependency on `two`. -/
def impTwoParse : String → Except Unit UntypedModule :=
  tParse [("import two", [("two", ⟨7, 10⟩)])]

/-- Batch where a `Src` module imports a `Test` module. -/
def c7In : List Input :=
  [mkInput ["test"] ["test", "two.gleam"] "" .Test,
   mkInput ["src"] ["src", "one.gleam"] "import two" .Src]

/-- Batch where `one` imports `two`. -/
def c2In : List Input :=
  [mkInput ["src"] ["src", "one.gleam"] "import two" .Src,
   mkInput ["src"] ["src", "two.gleam"] "" .Src]

/-- First of two inputs sharing one canonical name. -/
def c8a : Input := mkInput ["src"] ["src", "one.gleam"] "" .Src

/-- Second duplicate input, same canonical name under another base. -/
def c8b : Input := mkInput ["other", "src"] ["other", "src", "one.gleam"] "" .Src

/-- Single nested `Src` input, used with docs rendering on. -/
def c4In : List Input :=
  [mkInput ["src"] ["src", "one", "two", "three.gleam"] "" .Src]

/-- Whether a declared dependency resolves to a registered module. -/
def depKnown (st : List (String × PModule)) (d : String × Meta) : Bool :=
  (lookupIdx st d.1).isSome

/-- Whether a declared dependency resolves to a `Test`-origin module. -/
def depTargetTest (st : List (String × PModule)) (d : String × Meta) : Bool :=
  match lookupIdx st d.1 with
  | some (_, dm) => dm.origin = ModuleOrigin.Test
  | none => false

/-- Origin of the module registered at index `i`. -/
def originAt (st : List (String × PModule)) (i : Nat) : Option ModuleOrigin :=
  st[i]?.map (fun e => e.2.origin)

/-- Declared dependencies of the module registered at index `i`. -/
def depsAt (st : List (String × PModule)) (i : Nat) : List (String × Meta) :=
  (st[i]?.map (fun e => e.2.module.deps)).getD []

/-- Input path of the module registered at index `i`. -/
def pathAt (st : List (String × PModule)) (i : Nat) : Path :=
  (st[i]?.map (fun e => e.2.path)).getD ⟨false, []⟩

/-- Raw source of the module registered at index `i`. -/
def srcAt (st : List (String × PModule)) (i : Nat) : String :=
  (st[i]?.map (fun e => e.2.src)).getD ""

/-- The single `Compiled` record produced for `c4In` with docs rendering. -/
def c4c : Compiled Unit :=
  ⟨["one", "two", "three"], .Src,
    [⟨"", ⟨true, ["gen", "src", "one@two@three.erl"]⟩⟩,
     ⟨"hey look some docs", ⟨true, ["gen", "docs", "one", "two", "three.md"]⟩⟩], ()⟩

/-- Concrete output of compiling `c4In` with docs rendering on. -/
def c4cs : List (Compiled Unit) := [c4c]

/-- First record of the `c2In` output: module `two`. -/
def c2two : Compiled Unit := ⟨["two"], .Src, [⟨"", ⟨true, ["gen", "src", "two.erl"]⟩⟩], ()⟩

/-- Second record of the `c2In` output: module `one`. -/
def c2one : Compiled Unit := ⟨["one"], .Src, [⟨"", ⟨true, ["gen", "src", "one.erl"]⟩⟩], ()⟩

/-- Concrete output of compiling `c2In`. -/
def c2cs : List (Compiled Unit) := [c2two, c2one]

/-- Concrete output of compiling `c1In`. -/
def c1cs : List (Compiled Unit) :=
  [⟨["one"], .Src, [⟨"", ⟨true, ["gen", "src", "one.erl"]⟩⟩], ()⟩,
   ⟨["two"], .Src, [⟨"", ⟨true, ["gen", "src", "two.erl"]⟩⟩], ()⟩]

/-- Registration table of the self-import batch `c9In`. -/
def c9st : List (String × PModule) :=
  [("one", ⟨"import one", ⟨true, ["src", "one.gleam"]⟩, ⟨true, ["src"]⟩, .Src,
    ⟨["one"], [("one", ⟨7, 10⟩)]⟩⟩)]

/-- Registration table of the cycle-plus-unknown-import batch `c3In`. -/
def c3st : List (String × PModule) :=
  [("a", ⟨"import missing", ⟨true, ["src", "a.gleam"]⟩, ⟨true, ["src"]⟩, .Src,
    ⟨["a"], [("missing", ⟨7, 14⟩)]⟩⟩),
   ("b", ⟨"import c", ⟨true, ["src", "b.gleam"]⟩, ⟨true, ["src"]⟩, .Src,
    ⟨["b"], [("c", ⟨7, 8⟩)]⟩⟩),
   ("c", ⟨"import b", ⟨true, ["src", "c.gleam"]⟩, ⟨true, ["src"]⟩, .Src,
    ⟨["c"], [("b", ⟨7, 8⟩)]⟩⟩)]

/-- Registration table of the src-importing-test batch `c7In`. -/
def c7st : List (String × PModule) :=
  [("two", ⟨"", ⟨true, ["test", "two.gleam"]⟩, ⟨true, ["test"]⟩, .Test, ⟨["two"], []⟩⟩),
   ("one", ⟨"import two", ⟨true, ["src", "one.gleam"]⟩, ⟨true, ["src"]⟩, .Src,
    ⟨["one"], [("two", ⟨7, 10⟩)]⟩⟩)]

/-! ### Splitting and joining round-trip -/

theorem splitChars_ne_nil (sep : Char) (l : List Char) : splitChars sep l ≠ [] := by
  cases l with
  | nil => simp [splitChars]
  | cons c cs =>
    simp only [splitChars]
    cases h : splitChars sep cs with
    | nil => simp
    | cons s ss => by_cases hc : c = sep <;> simp [hc]

theorem joinChars_splitChars (sep : Char) (l : List Char) :
    joinChars sep (splitChars sep l) = l := by
  induction l with
  | nil => rfl
  | cons c cs ih =>
    cases h : splitChars sep cs with
    | nil => exact absurd h (splitChars_ne_nil sep cs)
    | cons s ss =>
      rw [h] at ih
      by_cases hc : c = sep
      · subst hc
        simp only [splitChars, h, if_pos rfl, joinChars]
        simpa using ih
      · simp only [splitChars, h, if_neg hc]
        cases ss with
        | nil => simpa [joinChars] using ih
        | cons s2 ss2 =>
          simp only [joinChars] at ih ⊢
          rw [List.cons_append, ih]

theorem joinWith_splitOnChar (sep : Char) (s : String) :
    joinWith sep (splitOnChar sep s) = s := by
  unfold joinWith splitOnChar
  rw [List.map_map]
  have h1 : (String.data ∘ fun l : List Char => (⟨l⟩ : String)) = id := rfl
  rw [h1, List.map_id, joinChars_splitChars]

/-- The `name_string()` of a module whose name the driver set from the
string `nm` is `nm` again. -/
theorem nameString_splitOnChar (m : UntypedModule) (nm : String)
    (h : m.name = splitOnChar '/' nm) : m.nameString = nm := by
  rw [UntypedModule.nameString, h, joinWith_splitOnChar]

/-! ### Generic helpers -/

theorem transGen_exists_first {α : Type} {r : α → α → Prop} {a b : α}
    (h : Relation.TransGen r a b) : ∃ c, r a c := by
  induction h with
  | single h => exact ⟨_, h⟩
  | tail _ _ ih => exact ih

theorem find?_first {α : Type} {p : α → Bool} :
    ∀ (l : List α) (k : Nat) (hk : k < l.length),
      (∀ j (hj : j < k), p (l.get ⟨j, by omega⟩) = false) →
      p (l.get ⟨k, hk⟩) = true → l.find? p = some (l.get ⟨k, hk⟩) := by
  intro l
  induction l with
  | nil => intro k hk; exact absurd hk (by simp)
  | cons a as ih =>
    intro k hk hbefore hp
    cases k with
    | zero => simp [List.find?_cons_of_pos _ (by simpa using hp)]
    | succ k =>
      have h0 : p a = false := by simpa using hbefore 0 (Nat.succ_pos k)
      rw [List.find?_cons_of_neg _ (by simp [h0])]
      exact ih k (by simpa using hk) (fun j hj => by simpa using hbefore (j + 1) (by omega)) hp

theorem exists_first_split {α : Type} {p : α → Prop} [DecidablePred p] :
    ∀ (l : List α), (∃ x ∈ l, p x) →
      ∃ l1 x l2, l = l1 ++ x :: l2 ∧ p x ∧ ∀ y ∈ l1, ¬ p y := by
  intro l
  induction l with
  | nil => rintro ⟨x, hx, _⟩; cases hx
  | cons a as ih =>
    intro hex
    by_cases ha : p a
    · exact ⟨[], a, as, rfl, ha, by simp⟩
    · obtain ⟨x, hx, hpx⟩ := hex
      rcases List.mem_cons.mp hx with rfl | hx
      · exact absurd hpx ha
      · obtain ⟨l1, y, l2, heq, hpy, hbefore⟩ := ih ⟨x, hx, hpx⟩
        refine ⟨a :: l1, y, l2, by rw [heq, List.cons_append], hpy, ?_⟩
        intro z hz
        rcases List.mem_cons.mp hz with rfl | hz
        · exact ha
        · exact hbefore z hz

/-! ### `mapME` and `foldME` -/

theorem mapME_ok_length {E α β : Type} {f : α → Except E β} :
    ∀ {l : List α} {bs : List β}, mapME f l = .ok bs → bs.length = l.length := by
  intro l
  induction l with
  | nil => intro bs h; cases h; rfl
  | cons a as ih =>
    intro bs h
    unfold mapME at h
    cases hf : f a with
    | error e => rw [hf] at h; cases h
    | ok b =>
      rw [hf] at h
      cases hm : mapME f as with
      | error e => rw [hm] at h; cases h
      | ok bs' => rw [hm] at h; cases h; simpa using ih hm

theorem mapME_ok_get {E α β : Type} {f : α → Except E β} :
    ∀ {l : List α} {bs : List β}, mapME f l = .ok bs →
      ∀ k (hk : k < l.length) (hk' : k < bs.length),
        f (l.get ⟨k, hk⟩) = .ok (bs.get ⟨k, hk'⟩) := by
  intro l
  induction l with
  | nil => intro bs h k hk; exact absurd hk (by simp)
  | cons a as ih =>
    intro bs h k hk hk'
    unfold mapME at h
    cases hf : f a with
    | error e => rw [hf] at h; cases h
    | ok b =>
      rw [hf] at h
      cases hm : mapME f as with
      | error e => rw [hm] at h; cases h
      | ok bs' =>
        rw [hm] at h
        cases h
        cases k with
        | zero => simpa using hf
        | succ k => exact ih hm k (by simpa using hk) (by simpa using hk')

theorem mapME_ok_of_mem {E α β : Type} {f : α → Except E β} :
    ∀ {l : List α} {bs : List β}, mapME f l = .ok bs → ∀ {a}, a ∈ l →
      ∃ b, f a = .ok b ∧ b ∈ bs := by
  intro l
  induction l with
  | nil => intro bs _ a ha; cases ha
  | cons x xs ih =>
    intro bs h a ha
    unfold mapME at h
    cases hf : f x with
    | error e => rw [hf] at h; cases h
    | ok b =>
      rw [hf] at h
      cases hm : mapME f xs with
      | error e => rw [hm] at h; cases h
      | ok bs' =>
        rw [hm] at h
        cases h
        rcases List.mem_cons.mp ha with rfl | ha
        · exact ⟨b, hf, List.mem_cons_self _ _⟩
        · obtain ⟨b', hb', hmem⟩ := ih hm ha
          exact ⟨b', hb', List.mem_cons_of_mem _ hmem⟩

theorem mapME_all_ok {E α β : Type} {f : α → Except E β} :
    ∀ {l : List α}, (∀ a ∈ l, ∃ b, f a = .ok b) → ∃ bs, mapME f l = .ok bs := by
  intro l
  induction l with
  | nil => intro _; exact ⟨[], rfl⟩
  | cons a as ih =>
    intro h
    obtain ⟨b, hb⟩ := h a (List.mem_cons_self _ _)
    obtain ⟨bs, hbs⟩ := ih (fun x hx => h x (List.mem_cons_of_mem _ hx))
    exact ⟨b :: bs, by unfold mapME; rw [hb, hbs]⟩

theorem mapME_error_at {E α β : Type} {f : α → Except E β} :
    ∀ (l1 : List α) {a : α} {e : E} (l2 : List α),
      (∀ x ∈ l1, ∃ b, f x = .ok b) → f a = .error e →
      mapME f (l1 ++ a :: l2) = .error e := by
  intro l1
  induction l1 with
  | nil => intro a e l2 _ ha; simpa [mapME] using by unfold mapME; rw [ha]
  | cons x xs ih =>
    intro a e l2 hok ha
    obtain ⟨b, hb⟩ := hok x (List.mem_cons_self _ _)
    have := ih l2 (fun y hy => hok y (List.mem_cons_of_mem _ hy)) ha
    show mapME f (x :: (xs ++ a :: l2)) = .error e
    unfold mapME
    rw [hb, this]

theorem mapME_error_shape {E α β : Type} {f : α → Except E β} :
    ∀ {l : List α} {e : E}, mapME f l = .error e → ∃ a ∈ l, f a = .error e := by
  intro l
  induction l with
  | nil => intro e h; cases h
  | cons a as ih =>
    intro e h
    unfold mapME at h
    cases hf : f a with
    | error e' => rw [hf] at h; cases h; exact ⟨a, List.mem_cons_self _ _, hf⟩
    | ok b =>
      rw [hf] at h
      cases hm : mapME f as with
      | error e' =>
        rw [hm] at h; cases h
        obtain ⟨x, hx, hfx⟩ := ih hm
        exact ⟨x, List.mem_cons_of_mem _ hx, hfx⟩
      | ok bs => rw [hm] at h; cases h

theorem foldME_append {E σ α : Type} (f : σ → α → Except E σ) :
    ∀ (l1 : List α) (s : σ) (l2 : List α),
      foldME f s (l1 ++ l2) = match foldME f s l1 with
        | .error e => .error e
        | .ok s' => foldME f s' l2 := by
  intro l1
  induction l1 with
  | nil => intro s l2; rfl
  | cons a as ih =>
    intro s l2
    show foldME f s (a :: (as ++ l2)) = _
    cases hf : f s a with
    | error e => simp [foldME, hf]
    | ok s1 =>
      simp only [foldME, hf]
      exact ih s1 l2

theorem foldME_ok_prefix {E σ α : Type} {f : σ → α → Except E σ} {s s' : σ} {l : List α}
    (h : foldME f s l = .ok s') (k : Nat) : ∃ sk, foldME f s (l.take k) = .ok sk := by
  have hsplit := foldME_append f (l.take k) s (l.drop k)
  rw [List.take_append_drop] at hsplit
  rw [h] at hsplit
  cases hk : foldME f s (l.take k) with
  | error e => rw [hk] at hsplit; cases hsplit
  | ok sk => exact ⟨sk, rfl⟩

/-! ### `lookupIdx` -/

theorem lookupIdxGo_none {nm : String} :
    ∀ (st : List (String × PModule)) (k : Nat),
      lookupIdxGo nm k st = none ↔ ∀ e ∈ st, e.1 ≠ nm := by
  intro st
  induction st with
  | nil => intro k; simp [lookupIdxGo]
  | cons x rest ih =>
    intro k
    obtain ⟨n, m⟩ := x
    by_cases hn : n = nm
    · simp [lookupIdxGo, hn]
    · simp [lookupIdxGo, hn, ih (k + 1)]

theorem lookupIdx_none {st : List (String × PModule)} {nm : String} :
    lookupIdx st nm = none ↔ ∀ e ∈ st, e.1 ≠ nm :=
  lookupIdxGo_none st 0

theorem lookupIdxGo_some {nm : String} {j : Nat} {pm : PModule} :
    ∀ (st : List (String × PModule)) (k : Nat), lookupIdxGo nm k st = some (j, pm) →
      ∃ d, j = k + d ∧ st[d]? = some (nm, pm) ∧
        ∀ a e, a < d → st[a]? = some e → e.1 ≠ nm := by
  intro st
  induction st with
  | nil => intro k h; cases h
  | cons x rest ih =>
    intro k h
    obtain ⟨n, m⟩ := x
    by_cases hn : n = nm
    · subst hn
      simp only [lookupIdxGo, beq_self_eq_true, if_pos] at h
      obtain ⟨hj, hm⟩ := Prod.mk.injEq .. ▸ (Option.some.injEq .. ▸ h)
      exact ⟨0, by omega, by simp [hm], fun a e ha => absurd ha (Nat.not_lt_zero a)⟩
    · simp only [lookupIdxGo, beq_iff_eq, hn, if_false] at h
      obtain ⟨d, hd, hget, hfirst⟩ := ih (k + 1) h
      refine ⟨d + 1, by omega, by simpa using hget, ?_⟩
      intro a e ha hgetA
      cases a with
      | zero =>
        have he : (n, m) = e := by simpa using hgetA
        subst he
        simpa using hn
      | succ a => exact hfirst a e (by omega) (by simpa using hgetA)

theorem lookupIdx_some {st : List (String × PModule)} {nm : String} {j : Nat} {pm : PModule}
    (h : lookupIdx st nm = some (j, pm)) :
    st[j]? = some (nm, pm) ∧ ∀ a e, a < j → st[a]? = some e → e.1 ≠ nm := by
  obtain ⟨d, hd, hget, hfirst⟩ := lookupIdxGo_some st 0 h
  have hdj : j = d := by omega
  subst hdj
  exact ⟨hget, hfirst⟩

theorem lookupIdxGo_first {nm : String} {pm : PModule} :
    ∀ (st : List (String × PModule)) (k : Nat) (k0 : Nat),
      st[k]? = some (nm, pm) → (∀ a e, a < k → st[a]? = some e → e.1 ≠ nm) →
      lookupIdxGo nm k0 st = some (k0 + k, pm) := by
  intro st
  induction st with
  | nil => intro k k0 hget; simp at hget
  | cons x rest ih =>
    intro k k0 hget hbefore
    obtain ⟨n, m⟩ := x
    cases k with
    | zero =>
      have : n = nm ∧ m = pm := by simpa using hget
      obtain ⟨rfl, rfl⟩ := this
      simp [lookupIdxGo]
    | succ k =>
      have hn : n ≠ nm := by
        have := hbefore 0 (n, m) (Nat.succ_pos k) (by simp)
        simpa using this
      simp only [lookupIdxGo, beq_iff_eq, hn, if_false]
      have hrec := ih k (k0 + 1) (by simpa using hget)
        (fun a e ha hget' => hbefore (a + 1) e (by omega) (by simpa using hget'))
      have harith : k0 + 1 + k = k0 + (k + 1) := by omega
      rw [hrec, harith]

theorem lookupIdx_first {st : List (String × PModule)} {nm : String} {k : Nat} {pm : PModule}
    (hget : st[k]? = some (nm, pm))
    (hbefore : ∀ a e, a < k → st[a]? = some e → e.1 ≠ nm) :
    lookupIdx st nm = some (k, pm) := by
  have := lookupIdxGo_first st k 0 hget hbefore
  simpa [lookupIdx] using this

/-- Lookup of the name of the `i`-th registered module finds exactly index
`i`, provided registered names are distinct. -/
theorem lookupIdx_self {st : List (String × PModule)} (hnodup : (st.map Prod.fst).Nodup)
    {i : Nat} {nm : String} {pm : PModule} (hget : st[i]? = some (nm, pm)) :
    lookupIdx st nm = some (i, pm) := by
  apply lookupIdx_first hget
  intro a e ha hgetA hcontra
  have h1 : (st.map Prod.fst)[a]? = some nm := by
    simp only [List.getElem?_map, hgetA, Option.map_some']
    rw [hcontra]
  have h2 : (st.map Prod.fst)[i]? = some nm := by
    simp [List.getElem?_map, hget]
  obtain ⟨ha', hae⟩ := List.getElem?_eq_some.mp h1
  obtain ⟨hi', hie⟩ := List.getElem?_eq_some.mp h2
  have e1 := List.indexOf_getElem hnodup a ha'
  have e2 := List.indexOf_getElem hnodup i hi'
  rw [hae] at e1
  rw [hie] at e2
  omega

theorem foldME_error_shape {E σ α : Type} {f : σ → α → Except E σ} :
    ∀ {l : List α} {s : σ} {e : E}, foldME f s l = .error e →
      ∃ s' a, a ∈ l ∧ f s' a = .error e := by
  intro l
  induction l with
  | nil => intro s e h; cases h
  | cons a as ih =>
    intro s e h
    unfold foldME at h
    cases hf : f s a with
    | error e' => rw [hf] at h; cases h; exact ⟨s, a, List.mem_cons_self _ _, hf⟩
    | ok s1 =>
      rw [hf] at h
      obtain ⟨s', x, hx, hfx⟩ := ih h
      exact ⟨s', x, List.mem_cons_of_mem _ hx, hfx⟩

/-! ### Pass 1 -/

theorem p1ent_some {parse : String → Except π UntypedModule} {se : String → String} {i : Input}
    {e : String × PModule} (h : p1ent parse se i = some e) :
    ∃ m0, moduleName i = some e.1 ∧ parse (se i.src) = .ok m0 ∧
      e.2 = ⟨i.src, i.path, i.source_base_path, i.origin,
        { m0 with name := splitOnChar '/' e.1 }⟩ := by
  cases hn : moduleName i with
  | none => simp only [p1ent, hn] at h; cases h
  | some nm =>
    cases hp : parse (se i.src) with
    | error er => simp only [p1ent, hn, hp] at h; cases h
    | ok m0 =>
      simp only [p1ent, hn, hp, Option.some.injEq] at h
      subst h
      exact ⟨m0, by simp [hn], by simp [hp], rfl⟩

theorem p1ent_nameString {parse : String → Except π UntypedModule} {se : String → String}
    {i : Input} {e : String × PModule} (h : p1ent parse se i = some e) :
    e.2.module.nameString = e.1 := by
  obtain ⟨m0, _, _, he⟩ := p1ent_some h
  rw [he]
  exact nameString_splitOnChar _ _ rfl

theorem pass1_append (parse : String → Except π UntypedModule) (se : String → String) :
    ∀ (l1 : List Input) (st0 : List (String × PModule)) (l2 : List Input),
      (pass1 parse se st0 (l1 ++ l2) : Except (Option (Error π ε)) (List (String × PModule))) =
        match (pass1 parse se st0 l1 : Except (Option (Error π ε)) (List (String × PModule))) with
        | .error e => .error e
        | .ok st1 => pass1 parse se st1 l2 := by
  intro l1
  induction l1 with
  | nil => intro st0 l2; rfl
  | cons i rest ih =>
    intro st0 l2
    show (pass1 parse se st0 (i :: (rest ++ l2)) : Except (Option (Error π ε)) _) = _
    cases hn : moduleName i with
    | none => simp [pass1, hn]
    | some nm =>
      cases hp : parse (se i.src) with
      | error e => simp [pass1, hn, hp]
      | ok m0 =>
        cases hl : lookupIdx st0 nm with
        | some x =>
          obtain ⟨xi, xm⟩ := x
          simp [pass1, hn, hp, hl]
        | none =>
          simp only [pass1, hn, hp, hl]
          exact ih _ l2

theorem pass1_ok {parse : String → Except π UntypedModule} {se : String → String} :
    ∀ (srcs : List Input) (st0 st : List (String × PModule)),
      (pass1 parse se st0 srcs : Except (Option (Error π ε)) (List (String × PModule))) = .ok st →
      ∃ news, st = st0 ++ news ∧ news.length = srcs.length ∧
        ∀ k (hk : k < srcs.length), news[k]? = p1ent parse se (srcs.get ⟨k, hk⟩) := by
  intro srcs
  induction srcs with
  | nil =>
    intro st0 st h
    cases h
    exact ⟨[], by simp, rfl, fun k hk => absurd hk (by simp)⟩
  | cons i rest ih =>
    intro st0 st h
    cases hn : moduleName i with
    | none => simp only [pass1, hn] at h; cases h
    | some nm =>
      cases hp : parse (se i.src) with
      | error e => simp only [pass1, hn, hp] at h; cases h
      | ok m0 =>
        cases hl : lookupIdx st0 nm with
        | some x =>
          obtain ⟨xi, xm⟩ := x
          simp only [pass1, hn, hp, hl] at h
          cases h
        | none =>
          simp only [pass1, hn, hp, hl] at h
          obtain ⟨news', heq, hlen, hpt⟩ := ih _ _ h
          refine ⟨(nm, ⟨i.src, i.path, i.source_base_path, i.origin,
            { m0 with name := splitOnChar '/' nm }⟩) :: news', ?_, by simp [hlen], ?_⟩
          · rw [heq, List.append_assoc, List.singleton_append]
          · intro k hk
            cases k with
            | zero => simp [p1ent, hn, hp]
            | succ k => simpa using hpt k (by simpa using hk)

theorem pass1_nodup {parse : String → Except π UntypedModule} {se : String → String} :
    ∀ (srcs : List Input) (st0 st : List (String × PModule)),
      (pass1 parse se st0 srcs : Except (Option (Error π ε)) (List (String × PModule))) = .ok st →
      (st0.map Prod.fst).Nodup → (st.map Prod.fst).Nodup := by
  intro srcs
  induction srcs with
  | nil =>
    intro st0 st h h0
    cases h
    exact h0
  | cons i rest ih =>
    intro st0 st h h0
    cases hn : moduleName i with
    | none => simp only [pass1, hn] at h; cases h
    | some nm =>
      cases hp : parse (se i.src) with
      | error e => simp only [pass1, hn, hp] at h; cases h
      | ok m0 =>
        cases hl : lookupIdx st0 nm with
        | some x =>
          obtain ⟨xi, xm⟩ := x
          simp only [pass1, hn, hp, hl] at h
          cases h
        | none =>
          simp only [pass1, hn, hp, hl] at h
          refine ih _ _ h ?_
          rw [List.map_append]
          rw [List.nodup_append]
          refine ⟨h0, by simp, ?_⟩
          intro x hx hx'
          have hxnm : x = nm := by simpa using hx'
          obtain ⟨e, he, hfst⟩ := List.mem_map.mp hx
          exact (lookupIdx_none.mp hl e he) (by rw [hfst, hxnm])

/-! ### Topological sort -/

theorem pickNode_mem {edges : List (Nat × Nat)} {r : List Nat} {v : Nat}
    (h : pickNode edges r = some v) : v ∈ r :=
  List.mem_of_find?_eq_some h

theorem pickNode_noInc {edges : List (Nat × Nat)} {r : List Nat} {v : Nat}
    (h : pickNode edges r = some v) : ∀ u ∈ r, (u, v) ∉ edges := by
  have hp := List.find?_some h
  simp only [noIncoming, List.all_eq_true] at hp
  intro u hu
  simpa using hp u hu

theorem topoLoop_perm (edges : List (Nat × Nat)) :
    ∀ (fuel : Nat) (r l : List Nat), r.length ≤ fuel →
      topoLoop edges fuel r = some l → l.Perm r := by
  intro fuel
  induction fuel with
  | zero =>
    intro r l hle h
    cases r with
    | nil => cases h; exact List.Perm.refl _
    | cons x xs => simp at hle
  | succ fuel ih =>
    intro r l hle h
    cases r with
    | nil => cases h; exact List.Perm.refl _
    | cons x xs =>
      unfold topoLoop at h
      cases hp : pickNode edges (x :: xs) with
      | none => rw [hp] at h; cases h
      | some v =>
        rw [hp] at h
        obtain ⟨l', hl', rfl⟩ := Option.map_eq_some'.mp h
        have hv : v ∈ x :: xs := pickNode_mem hp
        have hlen : ((x :: xs).erase v).length ≤ fuel := by
          rw [List.length_erase_of_mem hv]
          simp only [List.length_cons] at hle ⊢
          omega
        exact ((ih _ _ hlen hl').cons v).trans (List.perm_cons_erase hv).symm

theorem topoLoop_indexOf (edges : List (Nat × Nat)) :
    ∀ (fuel : Nat) (r l : List Nat), r.length ≤ fuel →
      topoLoop edges fuel r = some l →
      ∀ u v, (u, v) ∈ edges → u ∈ r → v ∈ r → l.indexOf u < l.indexOf v := by
  intro fuel
  induction fuel with
  | zero =>
    intro r l hle h u v he hu hv
    cases r with
    | nil => cases hu
    | cons x xs => simp at hle
  | succ fuel ih =>
    intro r l hle h u v he hu hv
    cases r with
    | nil => cases hu
    | cons x xs =>
      unfold topoLoop at h
      cases hp : pickNode edges (x :: xs) with
      | none => rw [hp] at h; cases h
      | some p =>
        rw [hp] at h
        obtain ⟨l', hl', rfl⟩ := Option.map_eq_some'.mp h
        have hpmem : p ∈ x :: xs := pickNode_mem hp
        have hlen : ((x :: xs).erase p).length ≤ fuel := by
          rw [List.length_erase_of_mem hpmem]
          simp only [List.length_cons] at hle ⊢
          omega
        by_cases hpv : p = v
        · exact absurd he (hpv ▸ pickNode_noInc hp u hu)
        · by_cases hpu : p = u
          · rw [List.indexOf_cons_eq l' hpu, List.indexOf_cons_ne l' hpv]
            exact Nat.succ_pos _
          · rw [List.indexOf_cons_ne l' hpu, List.indexOf_cons_ne l' hpv]
            refine Nat.succ_lt_succ (ih _ _ hlen hl' u v he ?_ ?_)
            · exact (List.mem_erase_of_ne (fun hh => hpu hh.symm)).mpr hu
            · exact (List.mem_erase_of_ne (fun hh => hpv hh.symm)).mpr hv

theorem topoSort_perm {n : Nat} {edges : List (Nat × Nat)} {l : List Nat}
    (h : topoSort n edges = some l) : l.Perm (List.range n) :=
  topoLoop_perm edges n (List.range n) l (by simp) h

theorem topoSort_nodup {n : Nat} {edges : List (Nat × Nat)} {l : List Nat}
    (h : topoSort n edges = some l) : l.Nodup :=
  (topoSort_perm h).nodup_iff.mpr (List.nodup_range n)

theorem topoSort_indexOf {n : Nat} {edges : List (Nat × Nat)} {l : List Nat}
    (h : topoSort n edges = some l) {u v : Nat} (he : (u, v) ∈ edges)
    (hu : u < n) (hv : v < n) : l.indexOf u < l.indexOf v :=
  topoLoop_indexOf edges n (List.range n) l (by simp) h u v he
    (List.mem_range.mpr hu) (List.mem_range.mpr hv)

theorem topoSort_selfLoop {n : Nat} {edges : List (Nat × Nat)} {v : Nat}
    (hv : v < n) (he : (v, v) ∈ edges) : topoSort n edges = none := by
  cases h : topoSort n edges with
  | none => rfl
  | some l => exact absurd (topoSort_indexOf h he hv hv) (lt_irrefl _)

/-! ### Pass 2 -/

theorem pass2Dep_ok {st : List (String × PModule)} {σ : List Nat} {module_name : String}
    {m : PModule} {mi : Nat} {d : String × Meta} {r : Nat × Nat}
    (h : (pass2Dep st σ module_name m mi d : Except (Option (Error π ε)) (Nat × Nat)) = .ok r) :
    ∃ di dm, lookupIdx st d.1 = some (di, dm) ∧
      ¬(m.origin = ModuleOrigin.Src ∧ dm.origin = ModuleOrigin.Test) ∧ r = (di, mi) := by
  obtain ⟨dep, meta⟩ := d
  cases hl : lookupIdx st dep with
  | none => simp only [pass2Dep, hl] at h; cases h
  | some x =>
    obtain ⟨di, dm⟩ := x
    by_cases hv : m.origin = ModuleOrigin.Src ∧ dm.origin = ModuleOrigin.Test
    · simp only [pass2Dep, hl, if_pos hv] at h; cases h
    · simp only [pass2Dep, hl, if_neg hv] at h
      cases h
      exact ⟨di, dm, rfl, hv, rfl⟩

theorem pass2Dep_ok_of {st : List (String × PModule)} {σ : List Nat} {module_name : String}
    {m : PModule} {mi : Nat} {d : String × Meta} {di : Nat} {dm : PModule}
    (hl : lookupIdx st d.1 = some (di, dm))
    (hv : ¬(m.origin = ModuleOrigin.Src ∧ dm.origin = ModuleOrigin.Test)) :
    (pass2Dep st σ module_name m mi d : Except (Option (Error π ε)) (Nat × Nat)) = .ok (di, mi) := by
  obtain ⟨dep, meta⟩ := d
  simp only [pass2Dep, hl, if_neg hv]

theorem pass2Mod_ok_with {st : List (String × PModule)} {σ : List Nat} {i : Nat}
    {nm : String} {m : PModule} (hget : st[i]? = some (nm, m))
    (hnodup : (st.map Prod.fst).Nodup)
    (hname : m.module.nameString = nm) {es : List (Nat × Nat)}
    (h : (pass2Mod st σ i : Except (Option (Error π ε)) (List (Nat × Nat))) = .ok es) :
    (mapME (pass2Dep st σ nm m i) m.module.deps
      : Except (Option (Error π ε)) (List (Nat × Nat))) = .ok es := by
  have hself : lookupIdx st nm = some (i, m) := lookupIdx_self hnodup hget
  simpa only [pass2Mod, hget, hname, hself] using h

theorem pass2Mod_ok_of {st : List (String × PModule)} {σ : List Nat} {i : Nat}
    {nm : String} {m : PModule} (hget : st[i]? = some (nm, m))
    (hnodup : (st.map Prod.fst).Nodup) (hname : m.module.nameString = nm)
    {es : List (Nat × Nat)}
    (h : (mapME (pass2Dep st σ nm m i) m.module.deps
      : Except (Option (Error π ε)) (List (Nat × Nat))) = .ok es) :
    (pass2Mod st σ i : Except (Option (Error π ε)) (List (Nat × Nat))) = .ok es := by
  have hself : lookupIdx st nm = some (i, m) := lookupIdx_self hnodup hget
  simpa only [pass2Mod, hget, hname, hself] using h

theorem pass2_ok_edge {st : List (String × PModule)} {σ : List Nat} {edges : List (Nat × Nat)}
    (hnodup : (st.map Prod.fst).Nodup)
    (hnames : ∀ e ∈ st, e.2.module.nameString = e.1)
    (h : (pass2 st σ : Except (Option (Error π ε)) (List (Nat × Nat))) = .ok edges)
    {i : Nat} (hiσ : i ∈ σ) {nm : String} {m : PModule} (hget : st[i]? = some (nm, m))
    {d : String × Meta} (hd : d ∈ m.module.deps) :
    ∃ di dm, lookupIdx st d.1 = some (di, dm) ∧
      ¬(m.origin = ModuleOrigin.Src ∧ dm.origin = ModuleOrigin.Test) ∧ (di, i) ∈ edges := by
  unfold pass2 at h
  cases hm : mapME (pass2Mod st σ) σ with
  | error e =>
    rw [hm] at h
    cases h
  | ok ess =>
    rw [hm] at h
    cases h
    obtain ⟨es, hes, hmemes⟩ := mapME_ok_of_mem hm hiσ
    have hname : m.module.nameString = nm := hnames (nm, m) (List.getElem?_mem hget)
    have hdeps := pass2Mod_ok_with hget hnodup hname hes
    obtain ⟨r, hr, hrmem⟩ := mapME_ok_of_mem hdeps hd
    obtain ⟨di, dm, hl, hv, rfl⟩ := pass2Dep_ok hr
    exact ⟨di, dm, hl, hv, List.mem_flatten.mpr ⟨es, hmemes, hrmem⟩⟩

theorem pass2_all_ok {st : List (String × PModule)} {σ : List Nat}
    (hnodup : (st.map Prod.fst).Nodup)
    (hnames : ∀ e ∈ st, e.2.module.nameString = e.1)
    (hσlt : ∀ i ∈ σ, i < st.length)
    (hknown : ∀ e ∈ st, ∀ d ∈ e.2.module.deps, ∃ x, lookupIdx st d.1 = some x)
    (hnoviol : ∀ e ∈ st, ∀ d ∈ e.2.module.deps, ∀ di dm, lookupIdx st d.1 = some (di, dm) →
      ¬(e.2.origin = ModuleOrigin.Src ∧ dm.origin = ModuleOrigin.Test)) :
    ∃ edges, (pass2 st σ : Except (Option (Error π ε)) (List (Nat × Nat))) = .ok edges := by
  have hmods : ∀ i ∈ σ, ∃ es,
      (pass2Mod st σ i : Except (Option (Error π ε)) (List (Nat × Nat))) = .ok es := by
    intro i hi
    have hlt := hσlt i hi
    cases hget : st[i]? with
    | none => exact absurd hget (by simp [List.getElem?_eq_some]; omega)
    | some e =>
      obtain ⟨nm, m⟩ := e
      have hmem : (nm, m) ∈ st := List.getElem?_mem hget
      have hname : m.module.nameString = nm := hnames (nm, m) hmem
      have hdeps : ∀ d ∈ m.module.deps, ∃ r,
          (pass2Dep st σ nm m i d : Except (Option (Error π ε)) (Nat × Nat)) = .ok r := by
        intro d hd
        obtain ⟨⟨di, dm⟩, hl⟩ := hknown (nm, m) hmem d hd
        exact ⟨(di, i), pass2Dep_ok_of hl (hnoviol (nm, m) hmem d hd di dm hl)⟩
      obtain ⟨es, hes⟩ := mapME_all_ok hdeps
      exact ⟨es, pass2Mod_ok_of hget hnodup hname hes⟩
  obtain ⟨ess, hess⟩ := mapME_all_ok hmods
  exact ⟨ess.flatten, by simp only [pass2, hess]⟩

/-! ### Pass 3 -/

theorem step_ok {infer : UntypedModule → (String → Option τ) → Except ε (TypedModule τ)}
    {emit : TypedModule τ → String} {st : List (String × PModule)} {rd : RenderDocs}
    {s s' : PassState τ} {i : Nat}
    (h : (step infer emit st rd s i : Except (Option (Error π ε)) (PassState τ)) = .ok s') :
    ∃ nm m t pp, st[i]? = some (nm, m) ∧
      infer m.module (sigLookup s.sigs) = .ok t ∧
      m.source_base_path.parent = some pp ∧
      s'.sigs = (m.module.nameString, t.type_info) :: s.sigs ∧
      s'.outs = s.outs ++
        [⟨m.module.nameString, m.module.name, m.origin, stepFiles emit m t pp rd⟩] := by
  cases hget : st[i]? with
  | none => simp only [step, hget] at h; cases h
  | some e =>
    obtain ⟨nm, m⟩ := e
    cases hinf : infer m.module (sigLookup s.sigs) with
    | error er => simp only [step, hget, hinf] at h; cases h
    | ok t =>
      cases hpp : m.source_base_path.parent with
      | none => simp only [step, hget, hinf, hpp] at h; cases h
      | some pp =>
        simp only [step, hget, hinf, hpp] at h
        cases h
        exact ⟨nm, m, t, pp, rfl, hinf, hpp, rfl, rfl⟩

theorem step_error {infer : UntypedModule → (String → Option τ) → Except ε (TypedModule τ)}
    {emit : TypedModule τ → String} {st : List (String × PModule)} {rd : RenderDocs}
    {s : PassState τ} {i : Nat} {e : Option (Error π ε)}
    (h : step infer emit st rd s i = .error e) :
    e = none ∨ ∃ p s0 er, e = some (.typeError p s0 er) := by
  cases hget : st[i]? with
  | none =>
    simp only [step, hget] at h
    cases h
    exact Or.inl rfl
  | some x =>
    obtain ⟨nm, m⟩ := x
    cases hinf : infer m.module (sigLookup s.sigs) with
    | error er =>
      simp only [step, hget, hinf] at h
      cases h
      exact Or.inr ⟨m.path, m.src, er, rfl⟩
    | ok t =>
      cases hpp : m.source_base_path.parent with
      | none =>
        simp only [step, hget, hinf, hpp] at h
        cases h
        exact Or.inl rfl
      | some pp => simp only [step, hget, hinf, hpp] at h; cases h

theorem foldME_step_ok {infer : UntypedModule → (String → Option τ) → Except ε (TypedModule τ)}
    {emit : TypedModule τ → String} {st : List (String × PModule)} {rd : RenderDocs}
    (hnames : ∀ e ∈ st, e.2.module.nameString = e.1) :
    ∀ (order : List Nat) (s0 s : PassState τ),
      (foldME (step infer emit st rd) s0 order
        : Except (Option (Error π ε)) (PassState τ)) = .ok s →
      (s.sigs.map Prod.fst = ((order.map (nodeName st)).reverse) ++ s0.sigs.map Prod.fst) ∧
      ∃ newouts, s.outs = s0.outs ++ newouts ∧ newouts.length = order.length ∧
        ∀ k (hk : k < order.length), ∃ nm m t pp,
          st[order.get ⟨k, hk⟩]? = some (nm, m) ∧
          (∃ f, infer m.module f = .ok t) ∧
          m.source_base_path.parent = some pp ∧
          newouts[k]? = some ⟨nm, m.module.name, m.origin, stepFiles emit m t pp rd⟩ := by
  intro order
  induction order with
  | nil =>
    intro s0 s h
    cases h
    exact ⟨by simp, [], by simp, rfl, fun k hk => absurd hk (by simp)⟩
  | cons i rest ih =>
    intro s0 s h
    unfold foldME at h
    cases hs1 : step infer emit st rd s0 i with
    | error e => rw [hs1] at h; cases h
    | ok s1 =>
      rw [hs1] at h
      obtain ⟨nm, m, t, pp, hget, hinf, hpp, hsigs1, houts1⟩ := step_ok hs1
      have hnm : m.module.nameString = nm := hnames (nm, m) (List.getElem?_mem hget)
      have hnode : nodeName st i = nm := by simp [nodeName, hget]
      obtain ⟨hsigs, newouts', houts, hlen, hpt⟩ := ih s1 s h
      constructor
      · rw [hsigs, hsigs1]
        simp only [List.map_cons, List.reverse_cons, hnm, hnode]
        rw [List.append_assoc, List.singleton_append]
      · refine ⟨⟨nm, m.module.name, m.origin, stepFiles emit m t pp rd⟩ :: newouts', ?_,
          by simp [hlen], ?_⟩
        · rw [houts, houts1, List.append_assoc, List.singleton_append, hnm]
        · intro k hk
          cases k with
          | zero => exact ⟨nm, m, t, pp, hget, ⟨_, hinf⟩, hpp, by simp⟩
          | succ k =>
            obtain ⟨nm', m', t', pp', hget', hinf', hpp', hout'⟩ :=
              hpt k (by simpa using hk)
            exact ⟨nm', m', t', pp', hget', hinf', hpp', by simpa using hout'⟩

theorem assemble_ok {sigs : List (String × τ)} {outs : List Out} {cs : List (Compiled τ)}
    (h : (assemble sigs outs : Except (Option (Error π ε)) (List (Compiled τ))) = .ok cs) :
    cs.length = outs.length ∧ ∀ k (hk : k < outs.length) (hk' : k < cs.length),
      ∃ ti, cs.get ⟨k, hk'⟩ =
        ⟨(outs.get ⟨k, hk⟩).name, (outs.get ⟨k, hk⟩).origin, (outs.get ⟨k, hk⟩).files, ti⟩ := by
  unfold assemble at h
  refine ⟨mapME_ok_length h, ?_⟩
  intro k hk hk'
  have hg := mapME_ok_get h k hk hk'
  cases hsl : sigLookup sigs (outs.get ⟨k, hk⟩).name_string with
  | none => simp only [hsl] at hg; cases hg
  | some ti =>
    simp only [hsl] at hg
    injection hg with hg2
    exact ⟨ti, hg2.symm⟩

theorem assemble_error {sigs : List (String × τ)} {outs : List Out} {e : Option (Error π ε)}
    (h : (assemble sigs outs : Except (Option (Error π ε)) (List (Compiled τ))) = .error e) :
    e = none := by
  unfold assemble at h
  obtain ⟨o, _, ho⟩ := mapME_error_shape h
  cases hsl : sigLookup sigs o.name_string with
  | none => simp only [hsl] at ho; cases ho; rfl
  | some ti => simp only [hsl] at ho; cases ho

theorem pass3_ok {infer : UntypedModule → (String → Option τ) → Except ε (TypedModule τ)}
    {emit : TypedModule τ → String} {st : List (String × PModule)} {rd : RenderDocs}
    {order : List Nat} {cs : List (Compiled τ)}
    (hnames : ∀ e ∈ st, e.2.module.nameString = e.1)
    (h : (pass3 infer emit st rd order : Except (Option (Error π ε)) (List (Compiled τ))) = .ok cs) :
    cs.length = order.length ∧ ∀ k (hk : k < order.length) (hk' : k < cs.length),
      ∃ nm m t pp ti, st[order.get ⟨k, hk⟩]? = some (nm, m) ∧
        (∃ f, infer m.module f = .ok t) ∧ m.source_base_path.parent = some pp ∧
        cs.get ⟨k, hk'⟩ = ⟨m.module.name, m.origin, stepFiles emit m t pp rd, ti⟩ := by
  unfold pass3 at h
  cases hf : foldME (step infer emit st rd) ⟨[], []⟩ order with
  | error e => rw [hf] at h; cases h
  | ok s =>
    rw [hf] at h
    obtain ⟨hsigs, newouts, houts, hlen, hpt⟩ := foldME_step_ok hnames order _ _ hf
    have houts' : s.outs = newouts := by simpa using houts
    obtain ⟨hcslen, hcs⟩ := assemble_ok h
    have hlencs : cs.length = order.length := by rw [hcslen, houts', hlen]
    refine ⟨hlencs, ?_⟩
    intro k hk hk'
    obtain ⟨nm, m, t, pp, hget, hinf, hpp, hout⟩ := hpt k hk
    have hkout : k < s.outs.length := by rw [houts', hlen]; exact hk
    obtain ⟨ti, hcget⟩ := hcs k hkout hk'
    refine ⟨nm, m, t, pp, ti, hget, hinf, hpp, ?_⟩
    have hsome : s.outs[k]? =
        some (⟨nm, m.module.name, m.origin, stepFiles emit m t pp rd⟩ : Out) := by
      rw [houts']; exact hout
    obtain ⟨hb, heq⟩ := List.getElem?_eq_some.mp hsome
    have hrec : s.outs.get ⟨k, hkout⟩ =
        ⟨nm, m.module.name, m.origin, stepFiles emit m t pp rd⟩ := by
      rw [List.get_eq_getElem]; exact heq
    rw [hcget, hrec]

theorem pass3_error {infer : UntypedModule → (String → Option τ) → Except ε (TypedModule τ)}
    {emit : TypedModule τ → String} {st : List (String × PModule)} {rd : RenderDocs}
    {order : List Nat} {e : Option (Error π ε)}
    (h : (pass3 infer emit st rd order
      : Except (Option (Error π ε)) (List (Compiled τ))) = .error e) :
    e = none ∨ ∃ p s0 er, e = some (.typeError p s0 er) := by
  unfold pass3 at h
  cases hf : foldME (step infer emit st rd) ⟨[], []⟩ order with
  | error e' =>
    rw [hf] at h
    cases h
    obtain ⟨s', a, _, hstep⟩ := foldME_error_shape hf
    exact step_error hstep
  | ok s =>
    rw [hf] at h
    exact Or.inl (assemble_error h)

/-! ### Full-run decomposition -/

theorem compile_ok_parts {parse : String → Except π UntypedModule} {se : String → String}
    {infer : UntypedModule → (String → Option τ) → Except ε (TypedModule τ)}
    {emit : TypedModule τ → String} {σ : List Nat} {srcs : List Input} {rd : RenderDocs}
    {cs : List (Compiled τ)}
    (h : compile parse se infer emit σ srcs rd = .ok cs) :
    ∃ st edges order,
      (pass1 parse se [] srcs : Except (Option (Error π ε)) (List (String × PModule))) = .ok st ∧
      (pass2 st σ : Except (Option (Error π ε)) (List (Nat × Nat))) = .ok edges ∧
      topoSort st.length edges = some order ∧
      (pass3 infer emit st rd order : Except (Option (Error π ε)) (List (Compiled τ))) = .ok cs := by
  cases h1 : (pass1 parse se [] srcs
      : Except (Option (Error π ε)) (List (String × PModule))) with
  | error e => simp only [compile, h1] at h; cases h
  | ok st =>
    simp only [compile, h1] at h
    cases h2 : (pass2 st σ : Except (Option (Error π ε)) (List (Nat × Nat))) with
    | error e => simp only [h2] at h; cases h
    | ok edges =>
      simp only [h2] at h
      cases h3 : topoSort st.length edges with
      | none => simp only [h3] at h; cases h
      | some order =>
        simp only [h3] at h
        exact ⟨st, edges, order, rfl, h2, h3, h⟩

theorem compile_ok_corr {parse : String → Except π UntypedModule} {se : String → String}
    {infer : UntypedModule → (String → Option τ) → Except ε (TypedModule τ)}
    {emit : TypedModule τ → String} {σ : List Nat} {srcs : List Input} {rd : RenderDocs}
    {cs : List (Compiled τ)}
    (h : compile parse se infer emit σ srcs rd = .ok cs) :
    ∃ st order,
      (pass1 parse se [] srcs : Except (Option (Error π ε)) (List (String × PModule))) = .ok st ∧
      st.length = srcs.length ∧ (st.map Prod.fst).Nodup ∧
      (∀ e ∈ st, e.2.module.nameString = e.1) ∧
      (∀ k (hk : k < srcs.length), st[k]? = p1ent parse se (srcs.get ⟨k, hk⟩)) ∧
      order.Perm (List.range st.length) ∧ cs.length = order.length ∧
      (∃ edges, (pass2 st σ : Except (Option (Error π ε)) (List (Nat × Nat))) = .ok edges ∧
        topoSort st.length edges = some order) ∧
      ∀ k (hk : k < order.length) (hk' : k < cs.length), ∃ nm m t pp ti,
        st[order.get ⟨k, hk⟩]? = some (nm, m) ∧ (∃ f, infer m.module f = .ok t) ∧
        m.source_base_path.parent = some pp ∧
        cs.get ⟨k, hk'⟩ = ⟨m.module.name, m.origin, stepFiles emit m t pp rd, ti⟩ := by
  obtain ⟨st, edges, order, h1, h2, h3, h4⟩ := compile_ok_parts h
  obtain ⟨news, hst, hlen, hpt⟩ := pass1_ok srcs [] st h1
  have hst' : st = news := by simpa using hst
  subst hst'
  have hlen' : st.length = srcs.length := hlen
  have hnodup : (st.map Prod.fst).Nodup := pass1_nodup srcs [] st h1 (by simp)
  have hpt' : ∀ k (hk : k < srcs.length), st[k]? = p1ent parse se (srcs.get ⟨k, hk⟩) := hpt
  have hnames : ∀ e ∈ st, e.2.module.nameString = e.1 := by
    intro e he
    obtain ⟨k, hk⟩ := List.getElem?_of_mem he
    have hklt : k < st.length := (List.getElem?_eq_some.mp hk).1
    have := hpt' k (by omega)
    rw [hk] at this
    exact p1ent_nameString this.symm
  obtain ⟨hcslen, hcorr⟩ := pass3_ok hnames h4
  exact ⟨st, order, h1, hlen', hnodup, hnames, hpt', topoSort_perm h3, hcslen,
    ⟨edges, h2, h3⟩, hcorr⟩

/-! ### Names, dependencies and order -/

theorem st_names_ne {st : List (String × PModule)} (hnodup : (st.map Prod.fst).Nodup)
    {i j : Nat} (hne : i ≠ j) {ei ej : String × PModule}
    (hi : st[i]? = some ei) (hj : st[j]? = some ej) : ei.1 ≠ ej.1 := by
  intro hcontra
  have h1 : (st.map Prod.fst)[i]? = some ei.1 := by simp [List.getElem?_map, hi]
  have h2 : (st.map Prod.fst)[j]? = some ei.1 := by
    simp only [List.getElem?_map, hj, Option.map_some']
    rw [hcontra]
  obtain ⟨hi', hie⟩ := List.getElem?_eq_some.mp h1
  obtain ⟨hj', hje⟩ := List.getElem?_eq_some.mp h2
  have e1 := List.indexOf_getElem hnodup i hi'
  have e2 := List.indexOf_getElem hnodup j hj'
  rw [hie] at e1
  rw [hje] at e2
  omega

theorem map_nodup_inj_idx {α β : Type} [DecidableEq β] {f : α → β} {l : List α}
    (h : (l.map f).Nodup) {i j : Nat} (hi : i < l.length) (hj : j < l.length)
    (heq : f (l.get ⟨i, hi⟩) = f (l.get ⟨j, hj⟩)) : i = j := by
  have hi' : i < (l.map f).length := by simpa using hi
  have hj' : j < (l.map f).length := by simpa using hj
  have heq' : f l[i] = f l[j] := by simpa only [List.get_eq_getElem] using heq
  have h1 : (l.map f)[i] = f l[i] := by simp only [List.getElem_map]
  have h2 : (l.map f)[j] = f l[i] := by
    simp only [List.getElem_map]
    exact heq'.symm
  have q1 := List.indexOf_getElem h i hi'
  have q2 := List.indexOf_getElem h j hj'
  rw [h1] at q1
  rw [h2] at q2
  omega

theorem declDeps_eq {parse : String → Except π UntypedModule} {se : String → String}
    {srcs : List Input} {st : List (String × PModule)}
    (hlen : st.length = srcs.length)
    (hnodup : (st.map Prod.fst).Nodup)
    (hpt : ∀ k (hk : k < srcs.length), st[k]? = p1ent parse se (srcs.get ⟨k, hk⟩))
    {i : Nat} {nm : String} {pm : PModule} (hget : st[i]? = some (nm, pm)) :
    declDeps parse se srcs nm = pm.module.deps.map Prod.fst := by
  have hilt : i < st.length := (List.getElem?_eq_some.mp hget).1
  have hilt' : i < srcs.length := by omega
  have hpe : p1ent parse se (srcs.get ⟨i, hilt'⟩) = some (nm, pm) := by
    rw [← hpt i hilt']
    exact hget
  obtain ⟨m0, hmn, hmp, hpm⟩ := p1ent_some hpe
  have hfind : srcs.find? (fun inp => moduleName inp == some nm) =
      some (srcs.get ⟨i, hilt'⟩) := by
    apply find?_first srcs i hilt'
    · intro j hj
      have hjlt : j < srcs.length := by omega
      have hjst : j < st.length := by omega
      cases hq : st[j]? with
      | none =>
        rw [List.getElem?_eq_getElem hjst] at hq
        cases hq
      | some ej =>
        have hpe' := hpt j hjlt
        rw [hq] at hpe'
        obtain ⟨m0', hmn', _, _⟩ := p1ent_some hpe'.symm
        have hne : ej.1 ≠ nm := st_names_ne hnodup (by omega) hq hget
        simp only [List.get_eq_getElem] at hmn'
        simp [hmn', hne]
    · simp only [List.get_eq_getElem] at hmn
      simp [hmn]
  have hstep1 : declDeps parse se srcs nm = m0.deps.map Prod.fst := by
    simp only [declDeps, hfind, hmp]
  have hpm' : pm = ⟨(srcs.get ⟨i, hilt'⟩).src, (srcs.get ⟨i, hilt'⟩).path,
      (srcs.get ⟨i, hilt'⟩).source_base_path, (srcs.get ⟨i, hilt'⟩).origin,
      { m0 with name := splitOnChar '/' nm }⟩ := hpm
  rw [hstep1, hpm']

theorem map_nodeName_range (st : List (String × PModule)) :
    (List.range st.length).map (nodeName st) = st.map Prod.fst := by
  apply List.ext_getElem?
  intro i
  by_cases hi : i < st.length
  · rw [List.getElem?_map, List.getElem?_map, List.getElem?_range hi,
      List.getElem?_eq_getElem hi]
    simp [nodeName, List.getElem?_eq_getElem hi]
  · have h1 : (List.range st.length)[i]? = none := by
      apply List.getElem?_eq_none
      simpa using Nat.le_of_not_lt hi
    have h2 : st[i]? = none := List.getElem?_eq_none (Nat.le_of_not_lt hi)
    rw [List.getElem?_map, List.getElem?_map, h1, h2]
    rfl

theorem mem_take_of_indexOf {l : List Nat} {a : Nat} (ha : a ∈ l) {k : Nat}
    (hidx : l.indexOf a < k) : a ∈ l.take k := by
  have hlt : l.indexOf a < l.length := List.indexOf_lt_length.mpr ha
  have hget : l[l.indexOf a] = a := List.getElem_indexOf hlt
  have hsome : (l.take k)[l.indexOf a]? = some a := by
    rw [List.getElem?_take_of_lt hidx, List.getElem?_eq_getElem hlt, hget]
  exact List.getElem?_mem hsome

theorem indexOf_get_of_nodup {l : List Nat} (h : l.Nodup) {k : Nat} (hk : k < l.length) :
    l.indexOf (l.get ⟨k, hk⟩) = k := by
  rw [List.get_eq_getElem]
  exact List.indexOf_getElem h k hk

/-- Transitive dependencies always end up earlier in a successful
topological order: reachability implies strict precedence. -/
theorem reachable_before {parse : String → Except π UntypedModule} {se : String → String}
    {srcs : List Input} {st : List (String × PModule)} {σ : List Nat}
    {edges : List (Nat × Nat)} {order : List Nat}
    (hlen : st.length = srcs.length)
    (hnodup : (st.map Prod.fst).Nodup)
    (hnames : ∀ e ∈ st, e.2.module.nameString = e.1)
    (hpt : ∀ k (hk : k < srcs.length), st[k]? = p1ent parse se (srcs.get ⟨k, hk⟩))
    (hσ : σ.Perm (List.range srcs.length))
    (hp2 : (pass2 st σ : Except (Option (Error π ε)) (List (Nat × Nat))) = .ok edges)
    (htopo : topoSort st.length edges = some order) :
    ∀ a b, ReachableFrom parse se srcs a b →
      ∀ ia pma, lookupIdx st a = some (ia, pma) →
        ∃ ib pmb, lookupIdx st b = some (ib, pmb) ∧ order.indexOf ib < order.indexOf ia := by
  have hstep : ∀ x y, DepStep parse se srcs x y →
      ∀ ix pmx, lookupIdx st x = some (ix, pmx) →
        ∃ iy pmy, lookupIdx st y = some (iy, pmy) ∧ order.indexOf iy < order.indexOf ix := by
    intro x y hxy ix pmx hlx
    obtain ⟨hgx, _⟩ := lookupIdx_some hlx
    have hxlt : ix < st.length := (List.getElem?_eq_some.mp hgx).1
    have hdd : declDeps parse se srcs x = pmx.module.deps.map Prod.fst :=
      declDeps_eq hlen hnodup hpt hgx
    have hy : y ∈ pmx.module.deps.map Prod.fst := by rw [← hdd]; exact hxy
    obtain ⟨d, hd, hd1⟩ := List.mem_map.mp hy
    have hxσ : ix ∈ σ := hσ.mem_iff.mpr (List.mem_range.mpr (by omega))
    obtain ⟨iy, pmy, hly, _, hedge⟩ := pass2_ok_edge hnodup hnames hp2 hxσ hgx hd
    have hylt : iy < st.length := by
      obtain ⟨hgy, _⟩ := lookupIdx_some hly
      exact (List.getElem?_eq_some.mp hgy).1
    refine ⟨iy, pmy, by rw [← hd1]; exact hly, ?_⟩
    exact topoSort_indexOf htopo hedge hylt hxlt
  intro a b hr
  induction hr with
  | single h => exact hstep _ _ h
  | tail hab hbc ih =>
    intro ia pma hla
    obtain ⟨ib, pmb, hlb, hord1⟩ := ih ia pma hla
    obtain ⟨ic, pmc, hlc, hord2⟩ := hstep _ _ hbc ib pmb hlb
    exact ⟨ic, pmc, hlc, by omega⟩

/-! ### Error propagation -/

theorem pass2Mod_eq {st : List (String × PModule)} {σ : List Nat} {i : Nat}
    {nm : String} {m : PModule} (hget : st[i]? = some (nm, m))
    (hnodup : (st.map Prod.fst).Nodup) (hname : m.module.nameString = nm) :
    (pass2Mod st σ i : Except (Option (Error π ε)) (List (Nat × Nat))) =
      mapME (pass2Dep st σ nm m i) m.module.deps := by
  have hself : lookupIdx st nm = some (i, m) := lookupIdx_self hnodup hget
  simp only [pass2Mod, hget, hname, hself]

theorem pass2_eq (st : List (String × PModule)) (σ : List Nat) :
    (pass2 st σ : Except (Option (Error π ε)) (List (Nat × Nat))) =
      match (mapME (pass2Mod st σ) σ
        : Except (Option (Error π ε)) (List (List (Nat × Nat)))) with
      | .error e => .error e
      | .ok ess => .ok ess.flatten := rfl

theorem compile_err1 {parse : String → Except π UntypedModule} {se : String → String}
    {infer : UntypedModule → (String → Option τ) → Except ε (TypedModule τ)}
    {emit : TypedModule τ → String} {σ : List Nat} {srcs : List Input} {rd : RenderDocs}
    {e : Option (Error π ε)}
    (h1 : (pass1 parse se [] srcs
      : Except (Option (Error π ε)) (List (String × PModule))) = .error e) :
    compile parse se infer emit σ srcs rd = .error e := by
  simp only [compile, h1]

theorem compile_err2 {parse : String → Except π UntypedModule} {se : String → String}
    {infer : UntypedModule → (String → Option τ) → Except ε (TypedModule τ)}
    {emit : TypedModule τ → String} {σ : List Nat} {srcs : List Input} {rd : RenderDocs}
    {st : List (String × PModule)} {e : Option (Error π ε)}
    (h1 : (pass1 parse se [] srcs
      : Except (Option (Error π ε)) (List (String × PModule))) = .ok st)
    (h2 : (pass2 st σ : Except (Option (Error π ε)) (List (Nat × Nat))) = .error e) :
    compile parse se infer emit σ srcs rd = .error e := by
  simp only [compile, h1, h2]

theorem compile_err_cycle {parse : String → Except π UntypedModule} {se : String → String}
    {infer : UntypedModule → (String → Option τ) → Except ε (TypedModule τ)}
    {emit : TypedModule τ → String} {σ : List Nat} {srcs : List Input} {rd : RenderDocs}
    {st : List (String × PModule)} {edges : List (Nat × Nat)}
    (h1 : (pass1 parse se [] srcs
      : Except (Option (Error π ε)) (List (String × PModule))) = .ok st)
    (h2 : (pass2 st σ : Except (Option (Error π ε)) (List (Nat × Nat))) = .ok edges)
    (h3 : topoSort st.length edges = none) :
    compile parse se infer emit σ srcs rd = .error (some .dependencyCycle) := by
  simp only [compile, h1, h2, h3]

theorem compile_error_after_pass2 {parse : String → Except π UntypedModule}
    {se : String → String}
    {infer : UntypedModule → (String → Option τ) → Except ε (TypedModule τ)}
    {emit : TypedModule τ → String} {σ : List Nat} {srcs : List Input} {rd : RenderDocs}
    {st : List (String × PModule)} {edges : List (Nat × Nat)} {e : Option (Error π ε)}
    (h1 : (pass1 parse se [] srcs
      : Except (Option (Error π ε)) (List (String × PModule))) = .ok st)
    (h2 : (pass2 st σ : Except (Option (Error π ε)) (List (Nat × Nat))) = .ok edges)
    (h : compile parse se infer emit σ srcs rd = .error e) :
    e = some .dependencyCycle ∨ e = none ∨ ∃ p s0 er, e = some (.typeError p s0 er) := by
  simp only [compile, h1, h2] at h
  cases h3 : topoSort st.length edges with
  | none =>
    simp only [h3] at h
    injection h with h
    exact Or.inl h.symm
  | some order =>
    simp only [h3] at h
    exact Or.inr (pass3_error h)

/-! ### Clean registration and duplicates -/

theorem pass1_clean_ok {parse : String → Except π UntypedModule} {se : String → String} :
    ∀ (l : List Input) (st0 : List (String × PModule)),
      (∀ x ∈ l, ∃ e, p1ent parse se x = some e ∧ e.1 ∉ st0.map Prod.fst) →
      ((l.map (fun x => moduleName x)).Nodup) →
      ∃ st, (pass1 parse se st0 l
        : Except (Option (Error π ε)) (List (String × PModule))) = .ok st := by
  intro l
  induction l with
  | nil => intro st0 _ _; exact ⟨st0, rfl⟩
  | cons x rest ih =>
    intro st0 hok hnodup
    obtain ⟨e, hpe, hnotin⟩ := hok x (List.mem_cons_self _ _)
    obtain ⟨m0, hmn, hmp, hpmdef⟩ := p1ent_some hpe
    have hlookup : lookupIdx st0 e.1 = none := by
      rw [lookupIdx_none]
      intro e' he' hc
      exact hnotin (List.mem_map.mpr ⟨e', he', hc⟩)
    have hok' : ∀ y ∈ rest, ∃ e', p1ent parse se y = some e' ∧
        e'.1 ∉ (st0 ++ [e]).map Prod.fst := by
      intro y hy
      obtain ⟨e', hpe', hnotin'⟩ := hok y (List.mem_cons_of_mem _ hy)
      obtain ⟨m0', hmn', _, _⟩ := p1ent_some hpe'
      refine ⟨e', hpe', ?_⟩
      rw [List.map_append]
      intro hmem
      rcases List.mem_append.mp hmem with hmem | hmem
      · exact hnotin' hmem
      · have he1 : e'.1 = e.1 := by simpa using hmem
        have hhead : moduleName x ∉ rest.map (fun z => moduleName z) := by
          have hh := hnodup
          simp only [List.map_cons, List.nodup_cons] at hh
          exact hh.1
        have hxy : moduleName x = moduleName y := by rw [hmn, hmn', he1]
        exact hhead (hxy ▸ List.mem_map_of_mem _ hy)
    have hnodup' : (rest.map (fun z => moduleName z)).Nodup := by
      have hh := hnodup
      simp only [List.map_cons, List.nodup_cons] at hh
      exact hh.2
    obtain ⟨st, hst⟩ := ih (st0 ++ [e]) hok' hnodup'
    refine ⟨st, ?_⟩
    simp only [pass1, hmn, hmp, hlookup]
    rw [← hpmdef, Prod.mk.eta]
    exact hst

theorem pass1_dup {parse : String → Except π UntypedModule} {se : String → String}
    (pre mid post : List Input) (a b : Input) (nm : String)
    (hclean : ∀ x ∈ pre ++ a :: mid, ∃ e, p1ent parse se x = some e)
    (hnodup : ((pre ++ a :: mid).map (fun x => moduleName x)).Nodup)
    (hna : moduleName a = some nm) (hnb : moduleName b = some nm)
    (hpb : ∃ m0, parse (se b.src) = .ok m0) :
    (pass1 parse se [] (pre ++ a :: mid ++ b :: post)
      : Except (Option (Error π ε)) (List (String × PModule))) =
      .error (some (.duplicateModule nm a.path b.path)) := by
  have hsplit : pre ++ a :: mid ++ b :: post = (pre ++ a :: mid) ++ (b :: post) := by
    simp [List.append_assoc]
  rw [hsplit]
  obtain ⟨st1, hst1⟩ := pass1_clean_ok (pre ++ a :: mid) []
    (fun x hx => (hclean x hx).imp (fun e he => ⟨he, by simp⟩)) hnodup
  rw [pass1_append parse se (pre ++ a :: mid) [] (b :: post), hst1]
  obtain ⟨news, hst, hlen, hpt⟩ := pass1_ok _ [] st1 hst1
  have hst' : st1 = news := by simpa using hst
  subst hst'
  have hlen1 : pre.length < st1.length := by
    rw [hlen]
    simp
  have hgeta : (pre ++ a :: mid).get ⟨pre.length, by simp⟩ = a := by
    rw [List.get_eq_getElem, List.getElem_append_right (le_refl _)]
    simp
  have hpa : p1ent parse se a = st1[pre.length]? := by
    rw [hpt pre.length (by simp), hgeta]
  obtain ⟨ea, hea⟩ := hclean a (by simp)
  obtain ⟨m0a, hmna, hmpa, hpma⟩ := p1ent_some hea
  have hgeta' : st1[pre.length]? = some ea := by rw [← hpa, hea]
  have hea1 : ea.1 = nm := by
    have := hmna
    rw [hna] at this
    exact (Option.some.injEq .. ▸ this).symm
  have hlook : lookupIdx st1 nm = some (pre.length, ea.2) := by
    rw [← hea1]
    apply lookupIdx_first
    · rw [hgeta']
    · intro j ej hj hgj
      have hjlt : j < (pre ++ a :: mid).length := by
        rw [← hlen]
        exact (List.getElem?_eq_some.mp hgj).1
      have hpj := hpt j hjlt
      rw [hgj] at hpj
      obtain ⟨m0j, hmnj, _, _⟩ := p1ent_some hpj.symm
      intro hcontra
      have hmm : (fun x => moduleName x) ((pre ++ a :: mid).get ⟨j, hjlt⟩) =
          (fun x => moduleName x) ((pre ++ a :: mid).get ⟨pre.length, by simp⟩) := by
        simp only
        rw [hmnj, hgeta, hmna, hcontra, hea1, ← hea1]
      have := map_nodup_inj_idx hnodup hjlt (by simp) hmm
      omega
  cases hpb with
  | intro m0b hmpb =>
    simp only [pass1, hnb, hmpb, hlook]
    have hpath : ea.2.path = a.path := by rw [hpma]
    rw [hpath]

/-! ### Path facts and per-record correspondence -/

theorem parent_concat (a : Bool) (cs : List String) (x : String) :
    Path.parent ⟨a, cs ++ [x]⟩ = some ⟨a, cs⟩ := by
  cases hcs : cs ++ [x] with
  | nil => exact absurd hcs (by simp)
  | cons y ys =>
    show (some (⟨a, (y :: ys).dropLast⟩ : Path) : Option Path) = some (⟨a, cs⟩ : Path)
    rw [← hcs, List.dropLast_concat]

theorem stripPref_append (ab : Bool) (bc rest : List String) :
    Path.stripPref ⟨ab, bc ++ rest⟩ ⟨ab, bc⟩ = some ⟨false, rest⟩ := by
  unfold Path.stripPref
  rw [if_pos]
  · simp
  · refine ⟨rfl, ?_⟩
    show bc.isPrefixOf (bc ++ rest) = true
    rw [List.isPrefixOf_iff_prefix]
    exact List.prefix_append bc rest

theorem moduleName_eval (ab : Bool) (bc ds : List String) (f src : String) (o : ModuleOrigin) :
    moduleName ⟨⟨ab, bc⟩, ⟨ab, bc ++ ds ++ [f]⟩, src, o⟩
      = some (joinWith '/' (ds ++ [(⟨dropExtChars f.data⟩ : String)])) := by
  have h1 : Path.stripPref ⟨ab, bc ++ ds ++ [f]⟩ ⟨ab, bc⟩ = some ⟨false, ds ++ [f]⟩ := by
    rw [List.append_assoc]
    exact stripPref_append ab bc (ds ++ [f])
  have h2 : Path.parent ⟨false, ds ++ [f]⟩ = some ⟨false, ds⟩ := parent_concat false ds f
  have h3 : Path.fileStem ⟨ab, bc ++ ds ++ [f]⟩ = some ⟨dropExtChars f.data⟩ := by
    unfold Path.fileStem
    rw [show bc ++ ds ++ [f] = (bc ++ ds) ++ [f] from by rw [List.append_assoc]]
    rw [List.getLast?_concat]
    rfl
  show (Path.stripPref ⟨ab, bc ++ ds ++ [f]⟩ ⟨ab, bc⟩).bind _ = _
  rw [h1]
  show (Path.parent ⟨false, ds ++ [f]⟩).bind _ = _
  rw [h2]
  show (Path.fileStem ⟨ab, bc ++ ds ++ [f]⟩).bind _ = _
  rw [h3]
  show some (Path.toStr (Path.join ⟨false, ds⟩ ⟨dropExtChars f.data⟩)) = _
  simp [Path.join, Path.toStr]

theorem compile_ok_record {parse : String → Except π UntypedModule} {se : String → String}
    {infer : UntypedModule → (String → Option τ) → Except ε (TypedModule τ)}
    {emit : TypedModule τ → String} {σ : List Nat} {srcs : List Input} {rd : RenderDocs}
    {cs : List (Compiled τ)}
    (h : compile parse se infer emit σ srcs rd = .ok cs) :
    ∀ c ∈ cs, ∃ inp m t pp ti, inp ∈ srcs ∧
      moduleName inp = some m.module.nameString ∧
      m.src = inp.src ∧ m.path = inp.path ∧ m.source_base_path = inp.source_base_path ∧
      m.origin = inp.origin ∧
      m.source_base_path.parent = some pp ∧
      (∃ f, infer m.module f = .ok t) ∧
      c = ⟨m.module.name, m.origin, stepFiles emit m t pp rd, ti⟩ := by
  intro c hc
  obtain ⟨st, order, h1, hlen, hnodup, hnames, hpt, hperm, hcslen, _, hcorr⟩ :=
    compile_ok_corr h
  obtain ⟨k, hk⟩ := List.getElem?_of_mem hc
  have hkcs : k < cs.length := (List.getElem?_eq_some.mp hk).1
  have hkord : k < order.length := by omega
  obtain ⟨nm, m, t, pp, ti, hget, hinf, hpp, hceq⟩ := hcorr k hkord hkcs
  have hok : order.get ⟨k, hkord⟩ < st.length := by
    have hmm : order.get ⟨k, hkord⟩ ∈ order := List.get_mem _ _ _
    have := hperm.mem_iff.mp hmm
    exact List.mem_range.mp this
  have hoklt : order.get ⟨k, hkord⟩ < srcs.length := by omega
  have hpe : p1ent parse se (srcs.get ⟨order.get ⟨k, hkord⟩, hoklt⟩) = some (nm, m) := by
    rw [← hpt _ hoklt]
    exact hget
  obtain ⟨m0, hmn, hmp, hpm⟩ := p1ent_some hpe
  have hcval : c = ⟨m.module.name, m.origin, stepFiles emit m t pp rd, ti⟩ := by
    have hgc := (List.getElem?_eq_some.mp hk).2
    rw [List.get_eq_getElem] at hceq
    rw [← hgc]
    exact hceq
  have hnmstr : m.module.nameString = nm :=
    hnames (nm, m) (List.getElem?_mem hget)
  have hpm2 : m = ⟨(srcs.get ⟨order.get ⟨k, hkord⟩, hoklt⟩).src,
      (srcs.get ⟨order.get ⟨k, hkord⟩, hoklt⟩).path,
      (srcs.get ⟨order.get ⟨k, hkord⟩, hoklt⟩).source_base_path,
      (srcs.get ⟨order.get ⟨k, hkord⟩, hoklt⟩).origin,
      { m0 with name := splitOnChar '/' nm }⟩ := hpm
  refine ⟨srcs.get ⟨order.get ⟨k, hkord⟩, hoklt⟩, m, t, pp, ti, List.get_mem _ _ _,
    ?_, ?_, ?_, ?_, ?_, hpp, hinf, hcval⟩
  · rw [hnmstr]
    exact hmn
  · rw [hpm2]
  · rw [hpm2]
  · rw [hpm2]
  · rw [hpm2]

/-! ### Claims -/

/-- C5 (confirmed): the canonical module name is computed by stripping the
base path as a prefix from the file path, taking the directory portion of
the remainder, appending the file stem (file name minus extension) and
joining with forward slashes; in particular base `/src` with path
`/src/one.gleam` yields `one`, and base `/src` with path
`/src/nested/one.gleam` yields `nested/one`. -/
theorem c5_module_name_derivation (ab : Bool) (bc ds : List String) (f src : String)
    (o : ModuleOrigin) :
    moduleName ⟨⟨ab, bc⟩, ⟨ab, bc ++ ds ++ [f]⟩, src, o⟩
      = some (joinWith '/' (ds ++ [(⟨dropExtChars f.data⟩ : String)])) ∧
    moduleName (mkInput ["src"] ["src", "one.gleam"] "" .Src) = some "one" ∧
    moduleName (mkInput ["src"] ["src", "nested", "one.gleam"] "" .Src) = some "nested/one" :=
  ⟨moduleName_eval ab bc ds f src o, rfl, rfl⟩

/-- C4 (confirmed): in a successfully compiled batch, a `Compiled` record
has more than one file iff its origin is `Src` and docs rendering was
requested — otherwise it has exactly one file — and the documentation
file's path is the `gen` directory joined with `docs` and each name
segment, with extension `.md`. -/
theorem c4_origin_docs_law (parse : String → Except π UntypedModule)
    (se : String → String)
    (infer : UntypedModule → (String → Option τ) → Except ε (TypedModule τ))
    (emit : TypedModule τ → String) (σ : List Nat) (srcs : List Input) (rd : RenderDocs)
    (cs : List (Compiled τ)) (h : compile parse se infer emit σ srcs rd = .ok cs) :
    ∀ c ∈ cs,
      ((1 < c.files.length) ↔ (c.origin = ModuleOrigin.Src ∧ rd = RenderDocs.True)) ∧
      (¬(c.origin = ModuleOrigin.Src ∧ rd = RenderDocs.True) → c.files.length = 1) ∧
      ((c.origin = ModuleOrigin.Src ∧ rd = RenderDocs.True) →
        ∃ pp f1, (∃ inp, inp ∈ srcs ∧ inp.source_base_path.parent = some pp ∧
            c.origin = inp.origin ∧ moduleName inp = some (joinWith '/' c.name)) ∧
          c.files = [f1, ⟨"hey look some docs",
            (c.name.foldl Path.join ((pp.join "gen").join "docs")).setExt "md"⟩]) := by
  intro c hc
  obtain ⟨inp, m, t, pp, ti, hmem, hmn, hsrc, hpath, hbase, horig, hpp, hinf, hceq⟩ :=
    compile_ok_record h c hc
  subst hceq
  refine ⟨?_, ?_, ?_⟩
  · by_cases hcond : m.origin = ModuleOrigin.Src ∧ rd = RenderDocs.True
    · simp [stepFiles, hcond]
    · simp [stepFiles, hcond]
  · intro hnot
    by_cases hcond : m.origin = ModuleOrigin.Src ∧ rd = RenderDocs.True
    · exact absurd hcond hnot
    · simp [stepFiles, hcond]
  · intro hcond
    have hcS : m.origin = ModuleOrigin.Src := hcond.1
    have hcT : rd = RenderDocs.True := hcond.2
    refine ⟨pp,
      ⟨emit t, ((pp.join "gen").join m.origin.dirName).join (joinWith '@' t.name ++ ".erl")⟩,
      ⟨inp, hmem, ?_, horig, hmn⟩, ?_⟩
    · rw [← hbase]
      exact hpp
    · simp [stepFiles, hcS, hcT]

/-- C6 (confirmed, with the spec-modelled type checker assumed to preserve
the driver-assigned module name): the generated target-language file of
every compiled module lives at the parent of its `source_base_path`, then
`gen`, then the origin's directory name — `src` for `Src` and `Dependency`,
`test` for `Test` — with file name the name segments joined by `@` and
extension `.erl`. -/
theorem c6_generated_path (parse : String → Except π UntypedModule)
    (se : String → String)
    (infer : UntypedModule → (String → Option τ) → Except ε (TypedModule τ))
    (emit : TypedModule τ → String) (σ : List Nat) (srcs : List Input) (rd : RenderDocs)
    (cs : List (Compiled τ))
    (hpres : ∀ m f t, infer m f = .ok t → t.name = m.name)
    (h : compile parse se infer emit σ srcs rd = .ok cs) :
    ModuleOrigin.dirName .Src = "src" ∧ ModuleOrigin.dirName .Dependency = "src" ∧
    ModuleOrigin.dirName .Test = "test" ∧
    ∀ c ∈ cs, ∃ inp pp contents rest, inp ∈ srcs ∧ c.origin = inp.origin ∧
      moduleName inp = some (joinWith '/' c.name) ∧
      inp.source_base_path.parent = some pp ∧
      c.files = OutputFile.mk contents
        (((pp.join "gen").join c.origin.dirName).join (joinWith '@' c.name ++ ".erl")) :: rest := by
  refine ⟨rfl, rfl, rfl, ?_⟩
  intro c hc
  obtain ⟨inp, m, t, pp, ti, hmem, hmn, hsrc, hpath, hbase, horig, hpp, hinf, hceq⟩ :=
    compile_ok_record h c hc
  obtain ⟨f, hf⟩ := hinf
  have htname : t.name = m.module.name := hpres _ _ _ hf
  subst hceq
  refine ⟨inp, pp, emit t,
    (if m.origin = ModuleOrigin.Src ∧ rd = RenderDocs.True then
      [OutputFile.mk "hey look some docs"
        ((m.module.name.foldl Path.join ((pp.join "gen").join "docs")).setExt "md")]
    else []), hmem, horig, hmn, ?_, ?_⟩
  · rw [← hbase]
    exact hpp
  · simp [stepFiles, htname]

/-- C10 (confirmed): a successful compile returns exactly one `Compiled`
record per input — the result length equals the number of inputs, the
records' name-strings are pairwise distinct, and every record corresponds
to an input with its derived name. -/
theorem c10_one_record_per_input (parse : String → Except π UntypedModule)
    (se : String → String)
    (infer : UntypedModule → (String → Option τ) → Except ε (TypedModule τ))
    (emit : TypedModule τ → String) (σ : List Nat) (srcs : List Input) (rd : RenderDocs)
    (cs : List (Compiled τ)) (h : compile parse se infer emit σ srcs rd = .ok cs) :
    cs.length = srcs.length ∧ (cs.map (fun c => joinWith '/' c.name)).Nodup ∧
    ∀ c ∈ cs, ∃ inp, inp ∈ srcs ∧ moduleName inp = some (joinWith '/' c.name) := by
  obtain ⟨st, order, h1, hlen, hnodup, hnames, hpt, hperm, hcslen, hrest, hcorr⟩ :=
    compile_ok_corr h
  have hordlen : order.length = st.length := by
    have := hperm.length_eq
    simpa using this
  refine ⟨by omega, ?_, ?_⟩
  · have hmapeq : cs.map (fun c => joinWith '/' c.name) = order.map (nodeName st) := by
      apply List.ext_getElem?
      intro i
      by_cases hi : i < order.length
      · have hics : i < cs.length := by omega
        rw [List.getElem?_map, List.getElem?_map, List.getElem?_eq_getElem hics,
          List.getElem?_eq_getElem hi]
        simp only [Option.map_some', Option.some.injEq]
        obtain ⟨nm, m, t, pp, ti, hget, _, _, hceq⟩ := hcorr i hi hics
        rw [List.get_eq_getElem] at hceq
        rw [hceq]
        have h1' : joinWith '/' m.module.name = nm :=
          hnames (nm, m) (List.getElem?_mem hget)
        have hget' := hget
        simp only [List.get_eq_getElem] at hget'
        have h2' : nodeName st order[i] = nm := by simp [nodeName, hget']
        show joinWith '/' m.module.name = nodeName st order[i]
        rw [h1', h2']
      · have h1' : (cs.map (fun c => joinWith '/' c.name))[i]? = none := by
          apply List.getElem?_eq_none
          simp only [List.length_map]
          omega
        have h2' : (order.map (nodeName st))[i]? = none := by
          apply List.getElem?_eq_none
          simp only [List.length_map]
          omega
        rw [h1', h2']
    rw [hmapeq]
    have hp : (order.map (nodeName st)).Perm ((List.range st.length).map (nodeName st)) :=
      hperm.map _
    rw [map_nodeName_range] at hp
    exact hp.nodup_iff.mpr hnodup
  · intro c hc
    obtain ⟨inp, m, t, pp, ti, hmem, hmn, _, _, _, _, _, _, hceq⟩ :=
      compile_ok_record h c hc
    subst hceq
    exact ⟨inp, hmem, hmn⟩

/-- C2 (confirmed): in a successfully compiled batch, whenever module `A`
appears among the declared dependencies of module `B`, the `Compiled`
record of `A` precedes the record of `B` in the returned list. -/
theorem c2_dependency_order (parse : String → Except π UntypedModule)
    (se : String → String)
    (infer : UntypedModule → (String → Option τ) → Except ε (TypedModule τ))
    (emit : TypedModule τ → String) (σ : List Nat) (srcs : List Input) (rd : RenderDocs)
    (cs : List (Compiled τ)) (hσ : σ.Perm (List.range srcs.length))
    (h : compile parse se infer emit σ srcs rd = .ok cs) :
    ∀ i j (hi : i < cs.length) (hj : j < cs.length),
      joinWith '/' (cs.get ⟨i, hi⟩).name ∈
        declDeps parse se srcs (joinWith '/' (cs.get ⟨j, hj⟩).name) →
      i < j := by
  obtain ⟨st, order, h1, hlen, hnodup, hnames, hpt, hperm, hcslen, hrest, hcorr⟩ :=
    compile_ok_corr h
  obtain ⟨edges, hp2, htopo⟩ := hrest
  intro i j hi hj hdep
  have hiord : i < order.length := by omega
  have hjord : j < order.length := by omega
  obtain ⟨nmi, mi, t1, pp1, ti1, hgeti, _, _, hceqi⟩ := hcorr i hiord hi
  obtain ⟨nmj, mj, t2, pp2, ti2, hgetj, _, _, hceqj⟩ := hcorr j hjord hj
  have hni : joinWith '/' (cs.get ⟨i, hi⟩).name = nmi := by
    rw [hceqi]
    exact hnames (nmi, mi) (List.getElem?_mem hgeti)
  have hnj : joinWith '/' (cs.get ⟨j, hj⟩).name = nmj := by
    rw [hceqj]
    exact hnames (nmj, mj) (List.getElem?_mem hgetj)
  rw [hni, hnj] at hdep
  rw [declDeps_eq hlen hnodup hpt hgetj] at hdep
  obtain ⟨d, hdmem, hd1⟩ := List.mem_map.mp hdep
  have hjlt : order.get ⟨j, hjord⟩ < st.length :=
    List.mem_range.mp (hperm.mem_iff.mp (List.get_mem _ _ _))
  have hilt : order.get ⟨i, hiord⟩ < st.length :=
    List.mem_range.mp (hperm.mem_iff.mp (List.get_mem _ _ _))
  have hjσ : order.get ⟨j, hjord⟩ ∈ σ :=
    hσ.mem_iff.mpr (List.mem_range.mpr (by omega))
  obtain ⟨di, dm, hldi, _, hedge⟩ := pass2_ok_edge hnodup hnames hp2 hjσ hgetj hdmem
  have hlself : lookupIdx st nmi = some (order.get ⟨i, hiord⟩, mi) :=
    lookupIdx_self hnodup hgeti
  rw [hd1] at hldi
  rw [hlself] at hldi
  have hdi : di = order.get ⟨i, hiord⟩ := by
    injection hldi with hpair
    exact (congrArg Prod.fst hpair).symm
  subst hdi
  have hdilt : order.get ⟨i, hiord⟩ < st.length := hilt
  have hidx := topoSort_indexOf htopo hedge hdilt hjlt
  have hnodupord : order.Nodup := hperm.nodup_iff.mpr (List.nodup_range _)
  rw [indexOf_get_of_nodup hnodupord hiord, indexOf_get_of_nodup hnodupord hjord] at hidx
  exact hidx

/-- Witness for C4: the origin-docs law evaluated on a concrete nested
`Src` batch compiled with docs rendering on. -/
theorem c4_witness :
    ((1 < c4c.files.length) ↔ (c4c.origin = ModuleOrigin.Src ∧
      RenderDocs.True = RenderDocs.True)) ∧
    (¬(c4c.origin = ModuleOrigin.Src ∧ RenderDocs.True = RenderDocs.True) →
      c4c.files.length = 1) ∧
    ((c4c.origin = ModuleOrigin.Src ∧ RenderDocs.True = RenderDocs.True) →
      ∃ pp f1, (∃ inp, inp ∈ c4In ∧ inp.source_base_path.parent = some pp ∧
          c4c.origin = inp.origin ∧ moduleName inp = some (joinWith '/' c4c.name)) ∧
        c4c.files = [f1, ⟨"hey look some docs",
          (c4c.name.foldl Path.join ((pp.join "gen").join "docs")).setExt "md"⟩]) :=
  c4_origin_docs_law noDepsParse idSE tInfer tEmit [0] c4In RenderDocs.True c4cs rfl
    c4c (by decide)

/-- Witness for C6: the generated-path law evaluated on the concrete nested
`Src` batch. -/
theorem c6_witness :
    ∃ inp pp contents rest, inp ∈ c4In ∧ c4c.origin = inp.origin ∧
      moduleName inp = some (joinWith '/' c4c.name) ∧
      inp.source_base_path.parent = some pp ∧
      c4c.files = OutputFile.mk contents
        (((pp.join "gen").join c4c.origin.dirName).join
          (joinWith '@' c4c.name ++ ".erl")) :: rest :=
  (c6_generated_path noDepsParse idSE tInfer tEmit [0] c4In RenderDocs.True c4cs
    (fun m f t ht => by cases ht; rfl) rfl).2.2.2 c4c (by decide)

/-- Witness for C10: the one-record-per-input law evaluated on the concrete
two-module batch with an import. -/
theorem c10_witness :
    c2cs.length = c2In.length ∧
    (c2cs.map (fun c => joinWith '/' c.name)).Nodup ∧
    ∃ inp, inp ∈ c2In ∧ moduleName inp = some (joinWith '/' c2two.name) := by
  have hh := c10_one_record_per_input impTwoParse idSE tInfer tEmit [0, 1] c2In
    RenderDocs.False c2cs rfl
  exact ⟨hh.1, hh.2.1, hh.2.2 c2two (by decide)⟩

/-- Witness for C2: the dependency-order law evaluated on the concrete
batch where `one` imports `two`: the record of `two` (position 0) precedes
that of `one` (position 1). -/
theorem c2_witness : (0 : Nat) < 1 :=
  c2_dependency_order impTwoParse idSE tInfer tEmit [0, 1] c2In RenderDocs.False c2cs
    (by decide) rfl 0 1 (by decide) (by decide) (by decide)

theorem p1ent_some_of {parse : String → Except π UntypedModule} {se : String → String}
    {x : Input} (h1 : (moduleName x).isSome) (h2 : ∃ m0, parse (se x.src) = .ok m0) :
    ∃ e, p1ent parse se x = some e := by
  obtain ⟨nm, hn⟩ := Option.isSome_iff_exists.mp h1
  obtain ⟨m0, hp⟩ := h2
  exact ⟨(nm, ⟨x.src, x.path, x.source_base_path, x.origin,
    { m0 with name := splitOnChar '/' nm }⟩), by simp only [p1ent, hn, hp]⟩

theorem pass1_facts {parse : String → Except π UntypedModule} {se : String → String}
    {srcs : List Input} {st : List (String × PModule)}
    (hp1 : (pass1 parse se [] srcs
      : Except (Option (Error π ε)) (List (String × PModule))) = .ok st) :
    st.length = srcs.length ∧ (st.map Prod.fst).Nodup ∧
    (∀ e ∈ st, e.2.module.nameString = e.1) ∧
    ∀ k (hk : k < srcs.length), st[k]? = p1ent parse se (srcs.get ⟨k, hk⟩) := by
  obtain ⟨news, hst, hlen, hpt⟩ := pass1_ok srcs [] st hp1
  have hst' : st = news := by simpa using hst
  subst hst'
  have hnodup : (st.map Prod.fst).Nodup := pass1_nodup srcs [] st hp1 (by simp)
  refine ⟨hlen, hnodup, ?_, hpt⟩
  intro e he
  obtain ⟨k, hk⟩ := List.getElem?_of_mem he
  have hklt : k < st.length := (List.getElem?_eq_some.mp hk).1
  have hh := hpt k (by omega)
  rw [hk] at hh
  exact p1ent_nameString hh.symm

/-- C1 (amended, corrected from "exactly the modules reachable"): in a
successful run, the signature map passed to the type checker at step `k` of
the topological walk (the state of the fold over the first `k` scheduled
modules) contains exactly the modules already compiled so far — and in
particular every module reachable from the module being checked, though it
may contain unreachable ones as well. -/
theorem c1_signature_map (parse : String → Except π UntypedModule) (se : String → String)
    (infer : UntypedModule → (String → Option τ) → Except ε (TypedModule τ))
    (emit : TypedModule τ → String) (σ : List Nat) (srcs : List Input) (rd : RenderDocs)
    (cs : List (Compiled τ)) (hσ : σ.Perm (List.range srcs.length))
    (h : compile parse se infer emit σ srcs rd = .ok cs) :
    ∃ st edges order,
      (pass1 parse se [] srcs
        : Except (Option (Error π ε)) (List (String × PModule))) = .ok st ∧
      (pass2 st σ : Except (Option (Error π ε)) (List (Nat × Nat))) = .ok edges ∧
      topoSort st.length edges = some order ∧
      ∀ k (hk : k < order.length), ∃ sk,
        (foldME (step infer emit st rd) ⟨[], []⟩ (order.take k)
          : Except (Option (Error π ε)) (PassState τ)) = .ok sk ∧
        sk.sigs.map Prod.fst = ((order.take k).map (nodeName st)).reverse ∧
        ∀ x, ReachableFrom parse se srcs (nodeName st (order.get ⟨k, hk⟩)) x →
          x ∈ sk.sigs.map Prod.fst := by
  obtain ⟨st, edges, order, h1, h2, h3, h4⟩ := compile_ok_parts h
  obtain ⟨hlen, hnodup, hnames, hpt⟩ := pass1_facts h1
  refine ⟨st, edges, order, h1, h2, h3, ?_⟩
  intro k hk
  have hperm := topoSort_perm h3
  have hnodupord : order.Nodup := hperm.nodup_iff.mpr (List.nodup_range _)
  unfold pass3 at h4
  cases hf : foldME (step infer emit st rd) ⟨[], []⟩ order with
  | error e => rw [hf] at h4; cases h4
  | ok s =>
    obtain ⟨sk, hsk⟩ := foldME_ok_prefix hf k
    obtain ⟨hsigs, _⟩ := foldME_step_ok hnames (order.take k) _ _ hsk
    have hsigs' : sk.sigs.map Prod.fst = ((order.take k).map (nodeName st)).reverse := by
      simpa using hsigs
    refine ⟨sk, hsk, hsigs', ?_⟩
    intro x hr
    have hklt : order.get ⟨k, hk⟩ < st.length :=
      List.mem_range.mp (hperm.mem_iff.mp (List.get_mem _ _ _))
    cases hget : st[order.get ⟨k, hk⟩]? with
    | none =>
      rw [List.getElem?_eq_getElem hklt] at hget
      cases hget
    | some e =>
      obtain ⟨nm, pm⟩ := e
      have hget2 := hget
      simp only [List.get_eq_getElem] at hget2
      have hnode : nodeName st (order.get ⟨k, hk⟩) = nm := by
        simp [nodeName, List.get_eq_getElem, hget2]
      have hlself : lookupIdx st nm = some (order.get ⟨k, hk⟩, pm) :=
        lookupIdx_self hnodup hget
      rw [hnode] at hr
      obtain ⟨ib, pmb, hlb, hord⟩ := reachable_before hlen hnodup hnames hpt hσ h2 h3
        nm x hr (order.get ⟨k, hk⟩) pm hlself
      rw [indexOf_get_of_nodup hnodupord hk] at hord
      obtain ⟨hgb, _⟩ := lookupIdx_some hlb
      have hblt : ib < st.length := (List.getElem?_eq_some.mp hgb).1
      have hbmem : ib ∈ order := hperm.mem_iff.mpr (List.mem_range.mpr (by omega))
      have hbtake : ib ∈ order.take k := mem_take_of_indexOf hbmem hord
      have hxnode : nodeName st ib = x := by simp [nodeName, hgb]
      rw [hsigs']
      rw [List.mem_reverse]
      exact List.mem_map.mpr ⟨ib, hbtake, hxnode⟩

/-- C1 counterexample: compiling the two independent modules `one` and
`two` succeeds with walk order `[0, 1]`, and when `two` (step 1) is type
checked the accumulated signature map contains exactly `one` — yet `one` is
not reachable from `two` via the dependency relation, so the map does not
contain exactly the modules reachable from the module being checked. -/
theorem c1_counterexample :
    (∃ st, (pass1 noDepsParse idSE [] c1In
        : Except (Option (Error Unit Unit)) (List (String × PModule))) = .ok st ∧
      (pass2 st [0, 1] : Except (Option (Error Unit Unit)) (List (Nat × Nat))) = .ok [] ∧
      topoSort st.length [] = some [0, 1] ∧
      nodeName st 1 = "two" ∧
      ∃ s1, (foldME (step tInfer tEmit st RenderDocs.False) ⟨[], []⟩ ([0, 1].take 1)
        : Except (Option (Error Unit Unit)) (PassState Unit)) = .ok s1 ∧
        s1.sigs.map Prod.fst = ["one"]) ∧
    ¬ ReachableFrom noDepsParse idSE c1In "two" "one" := by
  constructor
  · exact ⟨_, rfl, rfl, rfl, rfl, _, rfl, rfl⟩
  · intro hr
    obtain ⟨c, hc⟩ := transGen_exists_first hr
    have hc' : c ∈ declDeps noDepsParse idSE c1In "two" := hc
    have hempty : declDeps noDepsParse idSE c1In "two" = [] := rfl
    rw [hempty] at hc'
    cases hc'

/-- Witness for C1's amended claim at the concrete two-module batch. -/
theorem c1_witness :
    ∃ st edges order,
      (pass1 noDepsParse idSE [] c1In
        : Except (Option (Error Unit Unit)) (List (String × PModule))) = .ok st ∧
      (pass2 st [0, 1] : Except (Option (Error Unit Unit)) (List (Nat × Nat))) = .ok edges ∧
      topoSort st.length edges = some order ∧
      ∀ k (hk : k < order.length), ∃ sk,
        (foldME (step tInfer tEmit st RenderDocs.False) ⟨[], []⟩ (order.take k)
          : Except (Option (Error Unit Unit)) (PassState Unit)) = .ok sk ∧
        sk.sigs.map Prod.fst = ((order.take k).map (nodeName st)).reverse ∧
        ∀ x, ReachableFrom noDepsParse idSE c1In (nodeName st (order.get ⟨k, hk⟩)) x →
          x ∈ sk.sigs.map Prod.fst :=
  c1_signature_map noDepsParse idSE tInfer tEmit [0, 1] c1In RenderDocs.False c1cs
    (by decide) rfl

/-- C3 counterexample: the batch `c3In` contains both a dependency cycle
(`b` imports `c` imports `b`) and an unknown import (`a` imports
`missing`); the iteration orders `[0, 1, 2]` and `[2, 1, 0]` are both valid
`HashMap` value orders (permutations of the node indices), yet the two runs
return different errors — the known-modules list carried by the
`UnknownImport` error differs — so `compile` is not deterministic in the
face of the unspecified hash-map iteration order. -/
theorem c3_counterexample :
    ([0, 1, 2] : List Nat).Perm (List.range 3) ∧
    ([2, 1, 0] : List Nat).Perm (List.range 3) ∧
    compile c3parse idSE tInfer tEmit [0, 1, 2] c3In RenderDocs.False
      = .error (some (.unknownImport "a" "missing" "import missing"
          ⟨true, ["src", "a.gleam"]⟩ ["a", "b", "c"] ⟨7, 14⟩)) ∧
    compile c3parse idSE tInfer tEmit [2, 1, 0] c3In RenderDocs.False
      = .error (some (.unknownImport "a" "missing" "import missing"
          ⟨true, ["src", "a.gleam"]⟩ ["c", "b", "a"] ⟨7, 14⟩)) ∧
    (["a", "b", "c"] : List String) ≠ ["c", "b", "a"] :=
  ⟨by decide, by decide, rfl, rfl, by decide⟩

/-- C3 (amended, corrected from full run-to-run determinism): for a fixed
input sequence and a fixed hash-map iteration order the result is a fixed
value, and on the cycle-plus-unknown-import batch every valid iteration
order yields an `UnknownImport` error for module `a` importing `missing` —
the error kind and its module fields are stable, though the known-modules
list it carries depends on the iteration order. -/
theorem c3_stable_error_kind : ∀ σ : List Nat, σ.Perm (List.range 3) →
    unknownShape (compile c3parse idSE tInfer tEmit σ c3In RenderDocs.False)
      = some ("a", "missing") := by
  intro σ hσ
  have h0σ : (0 : Nat) ∈ σ := hσ.mem_iff.mpr (by decide)
  obtain ⟨σ1, z, σ2, hsplit, hz, hfirst⟩ :=
    @exists_first_split Nat (fun j => j = 0) (fun j => Nat.decEq j 0) σ ⟨0, h0σ, rfl⟩
  subst hsplit
  subst hz
  have hok1 : ∀ j ∈ σ1, ∃ es, (pass2Mod c3st (σ1 ++ 0 :: σ2) j
      : Except (Option (Error Unit Unit)) (List (Nat × Nat))) = .ok es := by
    intro j hj
    have hjσ : j ∈ σ1 ++ 0 :: σ2 := List.mem_append.mpr (Or.inl hj)
    have hjmem : j ∈ List.range 3 := hσ.mem_iff.mp hjσ
    have hj12 : j = 1 ∨ j = 2 := by
      have hj0 : ¬(j = 0) := hfirst j hj
      have := List.mem_range.mp hjmem
      omega
    rcases hj12 with rfl | rfl
    · exact ⟨[(2, 1)], rfl⟩
    · exact ⟨[(1, 2)], rfl⟩
  have herr := mapME_error_at σ1 σ2 hok1
    (show (pass2Mod c3st (σ1 ++ 0 :: σ2) 0
        : Except (Option (Error Unit Unit)) (List (Nat × Nat)))
      = .error (some (.unknownImport "a" "missing" "import missing"
          ⟨true, ["src", "a.gleam"]⟩ (valuesNames c3st (σ1 ++ 0 :: σ2)) ⟨7, 14⟩)) from rfl)
  have hp2 : (pass2 c3st (σ1 ++ 0 :: σ2)
      : Except (Option (Error Unit Unit)) (List (Nat × Nat)))
      = .error (some (.unknownImport "a" "missing" "import missing"
          ⟨true, ["src", "a.gleam"]⟩ (valuesNames c3st (σ1 ++ 0 :: σ2)) ⟨7, 14⟩)) := by
    simp only [pass2, herr]
  have hcomp := @compile_err2 Unit Unit Unit c3parse idSE tInfer tEmit (σ1 ++ 0 :: σ2) c3In
    RenderDocs.False c3st _ rfl hp2
  rw [hcomp]
  rfl

/-- Witness for C3's amended claim at a concrete iteration order. -/
theorem c3_witness :
    unknownShape (compile c3parse idSE tInfer tEmit [0, 1, 2] c3In RenderDocs.False)
      = some ("a", "missing") :=
  c3_stable_error_kind [0, 1, 2] (by decide)

/-- C9 (confirmed): a module that declares a dependency on its own
canonical name makes `compile` return a `DependencyCycle` error rather than
compiling it (stated for batches that register cleanly, with all imports
known and no `Src`-imports-`Test` pair, so that no earlier error preempts
the cycle check). -/
theorem c9_self_import_cycle (parse : String → Except π UntypedModule) (se : String → String)
    (infer : UntypedModule → (String → Option τ) → Except ε (TypedModule τ))
    (emit : TypedModule τ → String) (σ : List Nat) (srcs : List Input) (rd : RenderDocs)
    (st : List (String × PModule)) (i : Nat) (meta : Meta)
    (hσ : σ.Perm (List.range srcs.length))
    (hp1 : (pass1 parse se [] srcs
      : Except (Option (Error π ε)) (List (String × PModule))) = .ok st)
    (hknown : ∀ e ∈ st, ∀ d ∈ e.2.module.deps, depKnown st d = true)
    (hnoviol : ∀ e ∈ st, ∀ d ∈ e.2.module.deps,
      ¬(e.2.origin = ModuleOrigin.Src ∧ depTargetTest st d = true))
    (hilt : i < st.length)
    (hself : (nodeName st i, meta) ∈ depsAt st i) :
    compile parse se infer emit σ srcs rd = .error (some .dependencyCycle) := by
  obtain ⟨hlen, hnodup, hnames, hpt⟩ := pass1_facts hp1
  have hknown' : ∀ e ∈ st, ∀ d ∈ e.2.module.deps, ∃ x, lookupIdx st d.1 = some x := by
    intro e he d hd
    exact Option.isSome_iff_exists.mp (hknown e he d hd)
  have hnoviol' : ∀ e ∈ st, ∀ d ∈ e.2.module.deps, ∀ di dm,
      lookupIdx st d.1 = some (di, dm) →
      ¬(e.2.origin = ModuleOrigin.Src ∧ dm.origin = ModuleOrigin.Test) := by
    intro e he d hd di dm hld hcontra
    refine hnoviol e he d hd ⟨hcontra.1, ?_⟩
    simp only [depTargetTest, hld]
    simp [hcontra.2]
  have hσlt : ∀ j ∈ σ, j < st.length := by
    intro j hj
    have := List.mem_range.mp (hσ.mem_iff.mp hj)
    omega
  obtain ⟨edges, hp2⟩ := pass2_all_ok hnodup hnames hσlt hknown' hnoviol'
  cases hget : st[i]? with
  | none =>
    rw [List.getElem?_eq_getElem hilt] at hget
    cases hget
  | some e =>
    obtain ⟨nm, pm⟩ := e
    have hnode : nodeName st i = nm := by simp [nodeName, hget]
    have hdeps : depsAt st i = pm.module.deps := by simp [depsAt, hget]
    rw [hnode, hdeps] at hself
    have hiσ : i ∈ σ := hσ.mem_iff.mpr (List.mem_range.mpr (by omega))
    obtain ⟨di, dm, hld, _, hedge⟩ := pass2_ok_edge hnodup hnames hp2 hiσ hget hself
    have hlself : lookupIdx st nm = some (i, pm) := lookupIdx_self hnodup hget
    have hdi : di = i := by
      change lookupIdx st nm = some (di, dm) at hld
      rw [hlself] at hld
      injection hld with hpair
      exact (congrArg Prod.fst hpair).symm
    subst hdi
    exact compile_err_cycle hp1 hp2 (topoSort_selfLoop hilt hedge)

/-- Witness for C9 at the concrete self-importing batch. -/
theorem c9_witness :
    compile impOneParse idSE tInfer tEmit [0] c9In RenderDocs.False
      = .error (some .dependencyCycle) :=
  c9_self_import_cycle impOneParse idSE tInfer tEmit [0] c9In RenderDocs.False c9st 0 ⟨7, 10⟩
    (by decide) rfl (by decide) (by decide) (by decide) (by decide)

/-- C8 (confirmed): when two inputs of a batch derive the same canonical
module name and everything up to the later duplicate parses cleanly with
otherwise distinct names, `compile` returns a `DuplicateModule` error whose
`first` is the earlier input's path and whose `second` is the later
input's; swapping the two duplicate inputs swaps the reported `first` and
`second`. -/
theorem c8_duplicate_symmetry (parse : String → Except π UntypedModule) (se : String → String)
    (infer : UntypedModule → (String → Option τ) → Except ε (TypedModule τ))
    (emit : TypedModule τ → String) (σ : List Nat) (rd : RenderDocs)
    (pre mid post : List Input) (a b : Input) (nm : String)
    (hclean : ∀ x ∈ pre ++ a :: mid,
      (moduleName x).isSome ∧ ∃ m0, parse (se x.src) = .ok m0)
    (hnodup : ((pre ++ a :: mid).map (fun x => moduleName x)).Nodup)
    (hna : moduleName a = some nm) (hnb : moduleName b = some nm)
    (hpb : ∃ m0, parse (se b.src) = .ok m0) :
    compile parse se infer emit σ (pre ++ a :: mid ++ b :: post) rd
      = .error (some (.duplicateModule nm a.path b.path)) ∧
    compile parse se infer emit σ (pre ++ b :: mid ++ a :: post) rd
      = .error (some (.duplicateModule nm b.path a.path)) := by
  have hcleanp : ∀ x ∈ pre ++ a :: mid, ∃ e, p1ent parse se x = some e :=
    fun x hx => p1ent_some_of (hclean x hx).1 (hclean x hx).2
  have hpa : ∃ m0, parse (se a.src) = .ok m0 := (hclean a (by simp)).2
  have hmapeq : (pre ++ b :: mid).map (fun x => moduleName x)
      = (pre ++ a :: mid).map (fun x => moduleName x) := by
    simp only [List.map_append, List.map_cons]
    rw [hna, hnb]
  have hcleanb : ∀ x ∈ pre ++ b :: mid, ∃ e, p1ent parse se x = some e := by
    intro x hx
    rcases List.mem_append.mp hx with hx | hx
    · exact hcleanp x (List.mem_append.mpr (Or.inl hx))
    · rcases List.mem_cons.mp hx with rfl | hx
      · exact p1ent_some_of (by rw [hnb]; rfl) hpb
      · exact hcleanp x (List.mem_append.mpr (Or.inr (List.mem_cons_of_mem _ hx)))
  have hnodupb : ((pre ++ b :: mid).map (fun x => moduleName x)).Nodup := by
    rw [hmapeq]
    exact hnodup
  exact ⟨compile_err1 (pass1_dup pre mid post a b nm hcleanp hnodup hna hnb hpb),
    compile_err1 (pass1_dup pre mid post b a nm hcleanb hnodupb hnb hna hpa)⟩

/-- Witness for C8 at the concrete duplicate pair `/src/one.gleam` and
`/other/src/one.gleam`. -/
theorem c8_witness :
    compile noDepsParse idSE tInfer tEmit [] [c8a, c8b] RenderDocs.False
      = .error (some (.duplicateModule "one" c8a.path c8b.path)) ∧
    compile noDepsParse idSE tInfer tEmit [] [c8b, c8a] RenderDocs.False
      = .error (some (.duplicateModule "one" c8b.path c8a.path)) :=
  c8_duplicate_symmetry noDepsParse idSE tInfer tEmit [] RenderDocs.False [] [] [] c8a c8b
    "one"
    (by
      intro x hx
      simp only [List.nil_append, List.mem_singleton] at hx
      subst hx
      exact ⟨by decide, ⟨⟨[], []⟩, rfl⟩⟩)
    (by decide) rfl rfl ⟨⟨[], []⟩, rfl⟩

theorem depTargetTest_true {st : List (String × PModule)} {d : String × Meta}
    (h : depTargetTest st d = true) :
    ∃ db dmb, lookupIdx st d.1 = some (db, dmb) ∧ dmb.origin = ModuleOrigin.Test := by
  cases hl : lookupIdx st d.1 with
  | none =>
    simp only [depTargetTest, hl] at h
    cases h
  | some x =>
    obtain ⟨db, dmb⟩ := x
    simp only [depTargetTest, hl] at h
    exact ⟨db, dmb, rfl, by simpa using h⟩

theorem depTargetTest_false {st : List (String × PModule)} {d : String × Meta}
    {db : Nat} {dmb : PModule} (h : ¬(depTargetTest st d = true))
    (hl : lookupIdx st d.1 = some (db, dmb)) : dmb.origin ≠ ModuleOrigin.Test := by
  intro hc
  apply h
  simp only [depTargetTest, hl]
  simp [hc]

/-- C7 (confirmed): in a cleanly registering batch with all imports known,
a `Src`-origin module declaring a dependency on a `Test`-origin module
makes `compile` return a `SrcImportingTest` error naming the importer as
`src_module` and the dependency as `test_module` (stated with the
violating pair unique so the reported error is pinned down); conversely a
batch with no such pair — `Dependency` modules may be imported by anyone
and `Test` modules may import anything — never produces a
`SrcImportingTest` error. -/
theorem c7_src_importing_test (parse : String → Except π UntypedModule) (se : String → String)
    (infer : UntypedModule → (String → Option τ) → Except ε (TypedModule τ))
    (emit : TypedModule τ → String) (σ : List Nat) (srcs : List Input) (rd : RenderDocs)
    (st : List (String × PModule))
    (hσ : σ.Perm (List.range srcs.length))
    (hp1 : (pass1 parse se [] srcs
      : Except (Option (Error π ε)) (List (String × PModule))) = .ok st)
    (hknown : ∀ e ∈ st, ∀ d ∈ e.2.module.deps, depKnown st d = true) :
    (∀ iS iT : Nat, iS < st.length → iT < st.length →
      originAt st iS = some ModuleOrigin.Src → originAt st iT = some ModuleOrigin.Test →
      (∃ meta, (nodeName st iT, meta) ∈ depsAt st iS) →
      (∀ a b : Nat, a < st.length → b < st.length →
        originAt st a = some ModuleOrigin.Src → originAt st b = some ModuleOrigin.Test →
        nodeName st b ∈ (depsAt st a).map Prod.fst → a = iS ∧ b = iT) →
      ∃ meta, compile parse se infer emit σ srcs rd
        = .error (some (.srcImportingTest (pathAt st iS) (srcAt st iS) meta
            (nodeName st iS) (nodeName st iT)))) ∧
    ((∀ a : Nat, a < st.length → ∀ d ∈ depsAt st a,
        ¬(originAt st a = some ModuleOrigin.Src ∧ depTargetTest st d = true)) →
      ∀ p s0 meta m1 m2, compile parse se infer emit σ srcs rd
        ≠ .error (some (.srcImportingTest p s0 meta m1 m2))) := by
  obtain ⟨hlen, hnodup, hnames, hpt⟩ := pass1_facts hp1
  have hσlt : ∀ j ∈ σ, j < st.length := by
    intro j hj
    have := List.mem_range.mp (hσ.mem_iff.mp hj)
    omega
  have hknown' : ∀ e ∈ st, ∀ d ∈ e.2.module.deps, ∃ x, lookupIdx st d.1 = some x :=
    fun e he d hd => Option.isSome_iff_exists.mp (hknown e he d hd)
  constructor
  · intro iS iT hiS hiT hoS hoT hdep huniq
    obtain ⟨metaT, hdepT⟩ := hdep
    obtain ⟨⟨nmS, mS⟩, hgetS⟩ : ∃ e, st[iS]? = some e :=
      ⟨st[iS], List.getElem?_eq_getElem hiS⟩
    obtain ⟨⟨nmT, mT⟩, hgetT⟩ : ∃ e, st[iT]? = some e :=
      ⟨st[iT], List.getElem?_eq_getElem hiT⟩
    have hoS' : mS.origin = ModuleOrigin.Src := by
      have hq := hoS
      simp only [originAt, hgetS, Option.map_some', Option.some.injEq] at hq
      exact hq
    have hoT' : mT.origin = ModuleOrigin.Test := by
      have hq := hoT
      simp only [originAt, hgetT, Option.map_some', Option.some.injEq] at hq
      exact hq
    have hnmS : nodeName st iS = nmS := by simp [nodeName, hgetS]
    have hnmT : nodeName st iT = nmT := by simp [nodeName, hgetT]
    have hdepsS : depsAt st iS = mS.module.deps := by simp [depsAt, hgetS]
    have hpathS : pathAt st iS = mS.path := by simp [pathAt, hgetS]
    have hsrcS : srcAt st iS = mS.src := by simp [srcAt, hgetS]
    rw [hnmT, hdepsS] at hdepT
    have hmemS : (nmS, mS) ∈ st := List.getElem?_mem hgetS
    have hnameS : mS.module.nameString = nmS := hnames _ hmemS
    have hPex : ∃ d ∈ mS.module.deps, depTargetTest st d = true := by
      refine ⟨(nmT, metaT), hdepT, ?_⟩
      have hlT : lookupIdx st nmT = some (iT, mT) := lookupIdx_self hnodup hgetT
      simp only [depTargetTest, hlT]
      simp [hoT']
    obtain ⟨l1, dbad, l2, hdsplit, hPbad, hPl1⟩ := exists_first_split mS.module.deps hPex
    obtain ⟨db, dmb, hldb, hdmbT⟩ := depTargetTest_true hPbad
    obtain ⟨dnm, dmeta⟩ := dbad
    have hldb' : lookupIdx st dnm = some (db, dmb) := hldb
    obtain ⟨hgdb, _⟩ := lookupIdx_some hldb'
    have hdblt : db < st.length := (List.getElem?_eq_some.mp hgdb).1
    have hdbO : originAt st db = some ModuleOrigin.Test := by
      simp [originAt, hgdb, hdmbT]
    have hdmem : (dnm, dmeta) ∈ mS.module.deps := by
      rw [hdsplit]
      simp
    have huq := huniq iS db hiS hdblt hoS hdbO (by
      have h1 : nodeName st db = dnm := by simp [nodeName, hgdb]
      rw [h1, hdepsS]
      exact List.mem_map.mpr ⟨(dnm, dmeta), hdmem, rfl⟩)
    have hdbiT : db = iT := huq.2
    subst hdbiT
    have hdnm : dnm = nmT := by
      rw [hgetT] at hgdb
      injection hgdb with hpair
      exact (congrArg Prod.fst hpair).symm
    have hpd : (pass2Dep st σ nmS mS iS (dnm, dmeta)
        : Except (Option (Error π ε)) (Nat × Nat))
        = .error (some (.srcImportingTest mS.path mS.src dmeta nmS dnm)) := by
      simp only [pass2Dep, hldb']
      rw [if_pos ⟨hoS', hdmbT⟩]
    have hl1ok : ∀ y ∈ l1, ∃ r, (pass2Dep st σ nmS mS iS y
        : Except (Option (Error π ε)) (Nat × Nat)) = .ok r := by
      intro y hy
      have hymem : y ∈ mS.module.deps := by
        rw [hdsplit]
        exact List.mem_append.mpr (Or.inl hy)
      obtain ⟨⟨dy, dmy⟩, hly⟩ := hknown' _ hmemS y hymem
      have hnotT : dmy.origin ≠ ModuleOrigin.Test := depTargetTest_false (hPl1 y hy) hly
      exact ⟨(dy, iS), pass2Dep_ok_of hly (fun hc => hnotT hc.2)⟩
    have hdeperr := mapME_error_at l1 l2 hl1ok hpd
    rw [← hdsplit] at hdeperr
    have hmoderr : (pass2Mod st σ iS : Except (Option (Error π ε)) (List (Nat × Nat)))
        = .error (some (.srcImportingTest mS.path mS.src dmeta nmS dnm)) := by
      rw [pass2Mod_eq hgetS hnodup hnameS]
      exact hdeperr
    have hiSσ : iS ∈ σ := hσ.mem_iff.mpr (List.mem_range.mpr (by omega))
    obtain ⟨σ1, z, σ2, hσsplit, hz, hσfirst⟩ :=
      exists_first_split σ (⟨iS, hiSσ, rfl⟩ : ∃ j ∈ σ, j = iS)
    subst hz
    have hσ1ok : ∀ j ∈ σ1, ∃ es, (pass2Mod st σ j
        : Except (Option (Error π ε)) (List (Nat × Nat))) = .ok es := by
      intro j hj
      have hjσ : j ∈ σ := by
        rw [hσsplit]
        exact List.mem_append.mpr (Or.inl hj)
      have hjlt : j < st.length := hσlt j hjσ
      obtain ⟨⟨nmj, mj⟩, hgj⟩ : ∃ e, st[j]? = some e :=
        ⟨st[j], List.getElem?_eq_getElem hjlt⟩
      have hmemj : (nmj, mj) ∈ st := List.getElem?_mem hgj
      have hnamej : mj.module.nameString = nmj := hnames _ hmemj
      have hdepsok : ∀ d ∈ mj.module.deps, ∃ r, (pass2Dep st σ nmj mj j d
          : Except (Option (Error π ε)) (Nat × Nat)) = .ok r := by
        intro d hd
        obtain ⟨⟨dd, dmd⟩, hld⟩ := hknown' _ hmemj d hd
        refine ⟨(dd, j), pass2Dep_ok_of hld ?_⟩
        intro hc
        obtain ⟨hgdd, _⟩ := lookupIdx_some hld
        have hddlt : dd < st.length := (List.getElem?_eq_some.mp hgdd).1
        have hq := huniq j dd hjlt hddlt (by simp [originAt, hgj, hc.1])
          (by simp [originAt, hgdd, hc.2]) (by
            have h1 : nodeName st dd = d.1 := by simp [nodeName, hgdd]
            have h2 : depsAt st j = mj.module.deps := by simp [depsAt, hgj]
            rw [h1, h2]
            exact List.mem_map.mpr ⟨d, hd, rfl⟩)
        exact hσfirst j hj hq.1
      obtain ⟨es, hes⟩ := mapME_all_ok hdepsok
      exact ⟨es, pass2Mod_ok_of hgj hnodup hnamej hes⟩
    have hmaperr := mapME_error_at σ1 σ2 hσ1ok hmoderr
    rw [← hσsplit] at hmaperr
    have hp2 : (pass2 st σ : Except (Option (Error π ε)) (List (Nat × Nat)))
        = .error (some (.srcImportingTest mS.path mS.src dmeta nmS dnm)) := by
      simp only [pass2, hmaperr]
    refine ⟨dmeta, ?_⟩
    rw [hpathS, hsrcS, hnmS, hnmT, ← hdnm]
    exact compile_err2 hp1 hp2
  · intro hclean p s0 meta m1 m2 hcomp
    have hnoviol' : ∀ e ∈ st, ∀ d ∈ e.2.module.deps, ∀ di dm,
        lookupIdx st d.1 = some (di, dm) →
        ¬(e.2.origin = ModuleOrigin.Src ∧ dm.origin = ModuleOrigin.Test) := by
      intro e he d hd di dm hld hc
      obtain ⟨a, hga⟩ := List.getElem?_of_mem he
      have halt : a < st.length := (List.getElem?_eq_some.mp hga).1
      refine hclean a halt d ?_ ⟨by simp [originAt, hga, hc.1], ?_⟩
      · have h2 : depsAt st a = e.2.module.deps := by simp [depsAt, hga]
        rw [h2]
        exact hd
      · simp only [depTargetTest, hld]
        simp [hc.2]
    obtain ⟨edges, hp2⟩ := pass2_all_ok hnodup hnames hσlt hknown' hnoviol'
    rcases compile_error_after_pass2 hp1 hp2 hcomp with hq | hq | ⟨p', s', er, hq⟩
    · simp at hq
    · simp at hq
    · simp at hq

/-- Witness for C7: on the batch `c7In` (a `Test` module `two` imported by
a `Src` module `one`) `compile` returns the pinned `SrcImportingTest`
error. -/
theorem c7_witness :
    ∃ meta, compile impTwoParse idSE tInfer tEmit [1, 0] c7In RenderDocs.False
      = .error (some (.srcImportingTest (pathAt c7st 1) (srcAt c7st 1) meta
          (nodeName c7st 1) (nodeName c7st 0))) :=
  (c7_src_importing_test impTwoParse idSE tInfer tEmit [1, 0] c7In RenderDocs.False c7st
    (by decide) rfl (by decide)).1 1 0 (by decide) (by decide) rfl rfl
    ⟨⟨7, 10⟩, by decide⟩ (by
      intro a b ha hb hoa hob hmem
      have hlen : c7st.length = 2 := rfl
      rw [hlen] at ha hb
      have ha2 : a = 0 ∨ a = 1 := by omega
      have hb2 : b = 0 ∨ b = 1 := by omega
      rcases ha2 with h | h <;> rcases hb2 with h2 | h2 <;> subst h <;> subst h2
      · exact absurd hoa (by decide)
      · exact absurd hoa (by decide)
      · exact ⟨rfl, rfl⟩
      · exact absurd hob (by decide))

end GleamProj
